import Mathlib

/-!
# A verification development for a declarative command-line argument parser

This file gives a shallow embedding of the parser engine of the repository
(`src/app.rs` and `src/args/arg.rs`) and proves properties of it.

Rust strings are modelled as `List Char`; `BTreeMap`s as key-sorted
association lists; `HashSet`s / `HashMap`s as insertion-ordered lists with
set/map semantics.  Process-exit paths (`report_error` with `quit`,
`print_help`, `print_version`) are modelled as a `Halt` outcome; the
distinct `format!` literals of the source become constructors of
`ParseErr`.  The help/usage *rendering* (layout strings) is not modelled:
no property below depends on it.
-/

namespace Clap

/-- Rust `&str` / `String`, modelled as its character sequence. -/
abbrev Str := List Char

/-- Shorthand turning a Lean string literal into the model's string type. -/
def str (s : String) : Str := s.data

/-! ## Small set / map operations

`HashSet::insert` / `remove` and `HashMap` operations, on
insertion-ordered lists. -/

/-- `HashSet::insert`: append if not already present. -/
def insertSet (l : List Str) (x : Str) : List Str :=
  if x ∈ l then l else l ++ [x]

/-- `HashSet::remove`. -/
def removeSet (l : List Str) (x : Str) : List Str :=
  l.filter (fun y => y ≠ x)

/-- Association-list lookup (first pair with the given key). -/
def alookup {α : Type} (m : List (Str × α)) (k : Str) : Option α :=
  (m.find? (fun p => p.1 = k)).map Prod.snd

/-- `BTreeMap::insert` on a key-sorted association list: `strLt` below is
the key order; an equal key replaces the stored value. -/
def strLt : Str → Str → Bool
  | [], [] => false
  | [], _ :: _ => true
  | _ :: _, [] => false
  | a :: as, b :: bs => a < b || (a = b && strLt as bs)

def insertSorted {α : Type} (k : Str) (v : α) : List (Str × α) → List (Str × α)
  | [] => [(k, v)]
  | (k', v') :: rest =>
    if strLt k k' then (k, v) :: (k', v') :: rest
    else if k = k' then (k, v) :: rest
    else (k', v') :: insertSorted k v rest

/-! ## Argument declaration builders (`args/*.rs`)

Field-for-field images of `FlagBuilder`, `OptBuilder`, `PosBuilder` as
they are constructed and consumed in `app.rs`. -/

structure MatchedArg where
  occurrences : Nat
  values : Option (List Str)
  deriving DecidableEq, Repr

structure FlagBuilder where
  name : Str
  short : Option Char
  long : Option Str
  help : Option Str
  multiple : Bool
  blacklist : Option (List Str)
  requires : Option (List Str)
  deriving DecidableEq, Repr

structure OptBuilder where
  name : Str
  short : Option Char
  long : Option Str
  help : Option Str
  multiple : Bool
  blacklist : Option (List Str)
  possible_vals : Option (List Str)
  requires : Option (List Str)
  required : Bool
  deriving DecidableEq, Repr

structure PosBuilder where
  name : Str
  index : Nat
  required : Bool
  multiple : Bool
  blacklist : Option (List Str)
  requires : Option (List Str)
  possible_vals : Option (List Str)
  help : Option Str
  deriving DecidableEq, Repr

structure ArgGroup where
  args : List Str
  required : Bool
  requires : Option (List Str)
  conflicts : Option (List Str)
  deriving DecidableEq, Repr

/-- The non-recursive part of an `App`: the three classified stores, the
groups, and the auto-help/version liveness bits. -/
structure Schema where
  flags : List (Str × FlagBuilder)
  opts : List (Str × OptBuilder)
  positionals : List (Nat × PosBuilder)
  groups : List (Str × ArgGroup)
  needsLongHelp : Bool
  needsLongVersion : Bool
  needsShortHelp : Bool
  needsShortVersion : Bool
  deriving DecidableEq, Repr

/-- `App` from `app.rs` (the fields the engine reads), with nested
subcommands. -/
inductive App where
  | mk (name : Str) (sch : Schema) (needsSubcmdHelp : Bool)
       (required : List Str) (matchedReqs : List Str) (blacklist : List Str)
       (binName : Option Str) (subcommands : List (Str × App))

def App.name : App → Str
  | .mk n _ _ _ _ _ _ _ => n

def App.schema : App → Schema
  | .mk _ s _ _ _ _ _ _ => s

def App.subcommands : App → List (Str × App)
  | .mk _ _ _ _ _ _ _ subs => subs

/-- `ArgMatches` with the nested subcommand match.  The rendered usage
string is not modelled (rendering is outside the verified engine). -/
inductive ArgMatches where
  | mk (args : List (Str × MatchedArg)) (subcommand : Option (Str × ArgMatches))

def ArgMatches.args : ArgMatches → List (Str × MatchedArg)
  | .mk a _ => a

def ArgMatches.subcommand : ArgMatches → Option (Str × ArgMatches)
  | .mk _ s => s

/-! ## HashMap operations for `matches.args` -/

def mapContains (m : List (Str × MatchedArg)) (k : Str) : Bool :=
  m.any (fun p => p.1 = k)

def mapLookup (m : List (Str × MatchedArg)) (k : Str) : Option MatchedArg :=
  (m.find? (fun p => p.1 = k)).map Prod.snd

/-- `HashMap::insert` (replaces an existing binding). -/
def mapInsert (m : List (Str × MatchedArg)) (k : Str) (v : MatchedArg) :
    List (Str × MatchedArg) :=
  if mapContains m k then m.map (fun p => if p.1 = k then (p.1, v) else p)
  else m ++ [(k, v)]

/-- `HashMap::get_mut` followed by a mutation: update in place if present. -/
def mapUpdate (m : List (Str × MatchedArg)) (k : Str)
    (f : MatchedArg → MatchedArg) : List (Str × MatchedArg) :=
  m.map (fun p => if p.1 = k then (p.1, f p.2) else p)

/-! ## Error taxonomy

Each constructor is one of the `report_error(format!(...), _, true)` /
`panic` literals of `app.rs`; the payload is the datum interpolated into
the message. -/

inductive ParseErr where
  | invalidValue (val : Str) (arg : Str)
  | emptyValue (arg : Str)
  | conflict (arg : Str)
  | multipleNotAllowed (arg : Str)
  | invalidLong (arg : Str)
  | invalidShort (arg : Str)
  | unexpectedOption (arg : Str)
  | unexpectedArgument (arg : Str)
  | missingValue (arg : Str)
  | missingRequired
  deriving DecidableEq, Repr

/-- The ways a parse terminates other than returning matches:
a user-facing error (exit 1), the help / version success paths (exit 0),
a Rust panic, or exhaustion of the model's recursion fuel. -/
inductive Halt where
  | perr (e : ParseErr)
  | help
  | version
  | crash
  | fuelOut
  deriving DecidableEq, Repr

/-! ## Parser state

The locals of `get_matches_from` plus the `self` sets it mutates. -/

structure ParseState where
  margs : List (Str × MatchedArg)
  required : List Str
  matchedReqs : List Str
  blacklist : List Str
  posOnly : Bool
  posCounter : Nat
  needsValOf : Option Str
  deriving DecidableEq, Repr

/-! ## Shared constraint bookkeeping -/

/-- The `for name in bl { self.blacklist.insert(name); self.required.remove(name); }`
pattern repeated at each match site. -/
def addBlacklist (st : ParseState) (bl : Option (List Str)) : ParseState :=
  match bl with
  | some l => l.foldl (fun s n =>
      { s with blacklist := insertSet s.blacklist n,
               required := removeSet s.required n }) st
  | none => st

/-- The `for n in reqs { matched_reqs.insert(n); if !matches.contains_key(n)
{ required.insert(n) } }` pattern repeated at each match site. -/
def addRequires (st : ParseState) (reqs : Option (List Str)) : ParseState :=
  match reqs with
  | some l => l.foldl (fun s n =>
      let s := { s with matchedReqs := insertSet s.matchedReqs n }
      if mapContains s.margs n then s
      else { s with required := insertSet s.required n }) st
  | none => st

/-- Modelled from the spec: the `parse_group_reqs!` macro invoked at each
match site in `app.rs` is defined in a source file that is not provided.
Per §4.3.3(4) of the specification, when a matched argument belongs to a
group, every other member of the group is added to the running blacklist,
the group's own `requires` are propagated into the required set, its
`conflicts` into the blacklist, and (so that a required group counts as
satisfied, §4.3.4/§8) the group's name is removed from the required set. -/
def parseGroupReqs (groups : List (Str × ArgGroup)) (st : ParseState)
    (argName : Str) : ParseState :=
  groups.foldl (fun s g =>
    if argName ∈ g.2.args then
      let s := g.2.args.foldl (fun s m =>
        if m = argName then s else { s with blacklist := insertSet s.blacklist m }) s
      let s := { s with required := removeSet s.required g.1 }
      let s := match g.2.requires with
        | some rs => rs.foldl (fun s r => { s with required := insertSet s.required r }) s
        | none => s
      match g.2.conflicts with
        | some cs => cs.foldl (fun s c => { s with blacklist := insertSet s.blacklist c }) s
        | none => s
    else s) st

/-! ## String shape helpers for token classification -/

/-- `arg_slice.starts_with("--")`. -/
def startsDashDash : Str → Bool
  | '-' :: '-' :: _ => true
  | _ => false

/-- `arg_slice.starts_with("-")`. -/
def startsDash : Str → Bool
  | '-' :: _ => true
  | _ => false

/-- `trim_left_matches(|c| c == '-')`. -/
def trimDashes (s : Str) : Str := s.dropWhile (fun c => c = '-')

/-- Rust `str::split(c).collect::<Vec<_>>()`: always at least one
(possibly empty) segment. -/
def splitChar (c : Char) : Str → List Str
  | [] => [[]]
  | x :: xs =>
    match splitChar c xs with
    | [] => [[]]
    | s :: rest => if x = c then [] :: s :: rest else (x :: s) :: rest

/-! ## `parse_long_arg` / `parse_short_arg` / `parse_single_short_flag` -/

/-- `check_for_help_and_version`. -/
def checkHelpAndVersion (sch : Schema) (c : Char) : Option Halt :=
  if c = 'h' ∧ sch.needsShortHelp then some .help
  else if c = 'v' ∧ sch.needsShortVersion then some .version
  else none

/-- The first option whose `long` equals the given text
(`opts.values().filter(long).nth(0)`). -/
def findOptByLong (opts : List (Str × OptBuilder)) (arg : Str) : Option OptBuilder :=
  (opts.find? (fun p => p.2.long = some arg)).map Prod.snd

def findFlagByLong (flags : List (Str × FlagBuilder)) (arg : Str) : Option FlagBuilder :=
  (flags.find? (fun p => p.2.long = some arg)).map Prod.snd

def findOptByShort (opts : List (Str × OptBuilder)) (c : Char) : Option OptBuilder :=
  (opts.find? (fun p => p.2.short = some c)).map Prod.snd

def findFlagByShort (flags : List (Str × FlagBuilder)) (c : Char) : Option FlagBuilder :=
  (flags.find? (fun p => p.2.short = some c)).map Prod.snd

/-- `parse_long_arg`.  Returns the state with `needsValOf` set to the
function's Rust return value. -/
def parseLongArg (sch : Schema) (st : ParseState) (fullArg : Str) :
    Except Halt ParseState :=
  let arg0 := trimDashes fullArg
  if arg0 = str "help" ∧ sch.needsLongHelp then .error .help
  else if arg0 = str "version" ∧ sch.needsLongVersion then .error .version
  else
    let hasEq : Bool := arg0.contains '='
    let parts := splitChar '=' arg0
    let arg := if hasEq then parts.headD [] else arg0
    let second := (parts.drop 1).headD []
    if hasEq ∧ second = [] then .error (.perr (.emptyValue arg))
    else
      let argVal : Option Str := if hasEq then some second else none
      match findOptByLong sch.opts arg with
      | some v =>
        if v.name ∈ st.blacklist then .error (.perr (.conflict arg))
        else if mapContains st.margs v.name then
          if ¬ v.multiple then .error (.perr (.multipleNotAllowed arg))
          else
            match v.possible_vals, argVal with
            | some pvals, some av =>
              if av ∉ pvals then .error (.perr (.invalidValue av v.name))
              else
                let m := mapUpdate st.margs v.name (fun o =>
                  { o with occurrences := o.occurrences + 1,
                           values := o.values.map (fun vs => vs ++ [av]) })
                .ok (longOptTail sch { st with margs := m } v argVal)
            | _, _ =>
              let m := match argVal with
                | some av => mapUpdate st.margs v.name (fun o =>
                    { o with occurrences := o.occurrences + 1,
                             values := o.values.map (fun vs => vs ++ [av]) })
                | none => st.margs
              .ok (longOptTail sch { st with margs := m } v argVal)
        else
          let m := mapInsert st.margs v.name
            { occurrences := if argVal.isSome then 1 else 0,
              values := match argVal with
                | some av => some [av]
                | none => some [] }
          .ok (longOptTail sch { st with margs := m } v argVal)
      | none =>
        match findFlagByLong sch.flags arg with
        | some v =>
          if v.name ∈ st.blacklist then .error (.perr (.conflict v.name))
          else if mapContains st.margs v.name ∧ ¬ v.multiple then
            .error (.perr (.multipleNotAllowed v.name))
          else
            let m := match mapLookup st.margs v.name with
              | some _ => mapUpdate st.margs v.name (fun f =>
                  { f with occurrences := if v.multiple then f.occurrences + 1 else 1 })
              | none => mapInsert st.margs v.name { occurrences := 1, values := none }
            let s := { st with margs := m }
            let s := { s with required := removeSet s.required v.name }
            let s := addBlacklist s v.blacklist
            let s := addRequires s v.requires
            let s := parseGroupReqs sch.groups s v.name
            .ok { s with needsValOf := none }
        | none => .error (.perr (.invalidLong arg))
where
  /-- The bookkeeping shared by the option paths of `parse_long_arg`
  (blacklist, `required.remove`, requires, group rules, return value). -/
  longOptTail (sch : Schema) (st : ParseState) (v : OptBuilder)
      (argVal : Option Str) : ParseState :=
    let s := addBlacklist st v.blacklist
    let s := { s with required := removeSet s.required v.name }
    let s := addRequires s v.requires
    let s := parseGroupReqs sch.groups s v.name
    { s with needsValOf := match argVal with
        | none => some v.name
        | some _ => none }

/-- `parse_single_short_flag`.  `false` means "no flag with this short";
the state is returned unchanged in that case. -/
def parseSingleShortFlag (sch : Schema) (st : ParseState) (c : Char) :
    Except Halt (Bool × ParseState) :=
  match findFlagByShort sch.flags c with
  | some v =>
    if v.name ∈ st.blacklist then .error (.perr (.conflict [c]))
    else if mapContains st.margs v.name ∧ ¬ v.multiple then
      .error (.perr (.multipleNotAllowed [c]))
    else
      let m := match mapLookup st.margs v.name with
        | some _ => mapUpdate st.margs v.name (fun f =>
            { f with occurrences := if v.multiple then f.occurrences + 1 else 1 })
        | none => mapInsert st.margs v.name { occurrences := 1, values := none }
      let s := { st with margs := m }
      let s := { s with required := removeSet s.required v.name }
      let s := addBlacklist s v.blacklist
      let s := addRequires s v.requires
      let s := parseGroupReqs sch.groups s v.name
      .ok (true, s)
  | none => .ok (false, st)

/-- The `for c in arg.chars()` loop of `parse_short_arg` for a clustered
short token. -/
def clusterLoop (sch : Schema) (origArg : Str) :
    List Char → ParseState → Except Halt ParseState
  | [], st => .ok st
  | c :: cs, st =>
    match checkHelpAndVersion sch c with
    | some h => .error h
    | none =>
      match parseSingleShortFlag sch st c with
      | .error h => .error h
      | .ok (true, st') => clusterLoop sch origArg cs st'
      | .ok (false, _) => .error (.perr (.invalidShort origArg))

/-- `parse_short_arg`. -/
def parseShortArg (sch : Schema) (st : ParseState) (fullArg : Str) :
    Except Halt ParseState :=
  let arg := trimDashes fullArg
  if arg.length > 1 then
    match clusterLoop sch arg arg st with
    | .error h => .error h
    | .ok st' => .ok { st' with needsValOf := none }
  else
    match arg.head? with
    | none => .error .crash
    | some c =>
      match checkHelpAndVersion sch c with
      | some h => .error h
      | none =>
        match parseSingleShortFlag sch st c with
        | .error h => .error h
        | .ok (true, st') => .ok { st' with needsValOf := none }
        | .ok (false, _) =>
          match findOptByShort sch.opts c with
          | some v =>
            if v.name ∈ st.blacklist then .error (.perr (.conflict arg))
            else
              let step : Except Halt (List (Str × MatchedArg)) :=
                if mapContains st.margs v.name then
                  if ¬ v.multiple then .error (.perr (.multipleNotAllowed arg))
                  else .ok st.margs
                else .ok (mapInsert st.margs v.name { occurrences := 0, values := some [] })
              match step with
              | .error h => .error h
              | .ok m =>
                let s := { st with margs := m }
                let s := addBlacklist s v.blacklist
                let s := { s with required := removeSet s.required v.name }
                let s := addRequires s v.requires
                let s := parseGroupReqs sch.groups s v.name
                .ok { s with needsValOf := some v.name }
          | none => .error (.perr (.invalidShort [c]))

/-! ## The token loop of `get_matches_from` -/

/-- Consuming a token as the pending value of option `opt`
(the `needs_val_of` branch at the top of the loop). -/
def consumePendingVal (opt : OptBuilder) (st : ParseState) (arg : Str) :
    Except Halt ParseState :=
  match opt.possible_vals with
  | some pvals =>
    if ¬ pvals.isEmpty ∧ arg ∉ pvals then
      .error (.perr (.invalidValue arg opt.name))
    else .ok (pendingRecord opt st arg)
  | none => .ok (pendingRecord opt st arg)
where
  pendingRecord (opt : OptBuilder) (st : ParseState) (arg : Str) : ParseState :=
    { st with margs := mapUpdate st.margs opt.name (fun o =>
        { o with values := o.values.map (fun vs => vs ++ [arg]),
                 occurrences := if opt.multiple then o.occurrences + 1 else 1 }) }

/-- The subcommand-or-positional branch (the final `else` of the loop),
minus the subcommand test which lives in `stepToken`. -/
def posArgBranch (sch : Schema) (st : ParseState) (arg : Str) :
    Except Halt ParseState :=
  if sch.positionals.isEmpty then .error (.perr (.unexpectedOption arg))
  else
    match (sch.positionals.find? (fun p => p.1 = st.posCounter)).map Prod.snd with
    | some p =>
      if p.name ∈ st.blacklist then .error (.perr (.conflict p.name))
      else
        let pvalsBad : Bool := match p.possible_vals with
          | some pvals => ¬ pvals.isEmpty ∧ arg ∉ pvals
          | none => false
        if pvalsBad then .error (.perr (.invalidValue arg p.name))
        else
          let (m1, counter, done) :=
            if p.multiple then
              match mapLookup st.margs p.name with
              | some _ =>
                (mapUpdate st.margs p.name (fun q =>
                  { q with occurrences := q.occurrences + 1,
                           values := q.values.map (fun vs => vs ++ [arg]) }),
                 st.posCounter, true)
              | none => (st.margs, st.posCounter, false)
            else (st.margs, st.posCounter + 1, false)
          let m2 := if done then m1
            else mapInsert m1 p.name { occurrences := 1, values := some [arg] }
          let s := { st with margs := m2, posCounter := counter }
          let s := addBlacklist s p.blacklist
          let s := { s with required := removeSet s.required p.name }
          let s := addRequires s p.requires
          let s := parseGroupReqs sch.groups s p.name
          .ok s
    | none => .error (.perr (.unexpectedArgument arg))

/-- One iteration's outcome: continue the loop, or break to subcommand
`name`. -/
inductive StepRes where
  | cont (st : ParseState)
  | sub (name : Str) (st : ParseState)
  deriving DecidableEq, Repr

/-- Token classification (steps 2-5 of the loop body). -/
def classifyToken (sch : Schema) (subKeys : List Str) (st : ParseState)
    (arg : Str) : Except Halt StepRes :=
  if startsDashDash arg ∧ ¬ st.posOnly then
    if arg.length = 2 then .ok (.cont { st with posOnly := true })
    else
      match parseLongArg sch st arg with
      | .error h => .error h
      | .ok st' => .ok (.cont st')
  else if startsDash arg ∧ arg.length ≠ 1 ∧ ¬ st.posOnly then
    match parseShortArg sch st arg with
    | .error h => .error h
    | .ok st' => .ok (.cont st')
  else
    if arg ∈ subKeys then
      if arg = str "help" then .error .help
      else .ok (.sub arg st)
    else
      match posArgBranch sch st arg with
      | .error h => .error h
      | .ok st' => .ok (.cont st')

/-- One full iteration of the `while let Some(arg) = it.next()` loop. -/
def stepToken (sch : Schema) (subKeys : List Str) (st : ParseState)
    (arg : Str) : Except Halt StepRes :=
  match (if st.posOnly then none else st.needsValOf) with
  | some nvo =>
    match alookup sch.opts nvo with
    | some opt =>
      match consumePendingVal opt st arg with
      | .error h => .error h
      | .ok st' => .ok (.cont { st' with needsValOf := none })
    | none => classifyToken sch subKeys st arg
  | none => classifyToken sch subKeys st arg

/-- How the token loop finished: tokens exhausted, or broken at a
subcommand name with the residual token stream. -/
inductive LoopExit where
  | fin (st : ParseState)
  | subc (name : Str) (st : ParseState) (rest : List Str)
  deriving DecidableEq, Repr

/-- The state carried by an iteration result. -/
def StepRes.state : StepRes → ParseState
  | .cont s => s
  | .sub _ s => s

/-- The state carried by a loop exit (`let st = match ex ...` in
`get_matches_from`). -/
def LoopExit.state : LoopExit → ParseState
  | .fin s => s
  | .subc _ s _ => s

def parseLoop (sch : Schema) (subKeys : List Str) :
    ParseState → List Str → Except Halt LoopExit
  | st, [] => .ok (.fin st)
  | st, arg :: rest =>
    match stepToken sch subKeys st arg with
    | .error h => .error h
    | .ok (.cont st') => parseLoop sch subKeys st' rest
    | .ok (.sub name st') => .ok (.subc name st' rest)

/-! ## Post-loop validation -/

/-- `validate_blacklist`: the first violated entry, if any. -/
def validateBlacklist (sch : Schema) (st : ParseState) : Option ParseErr :=
  st.blacklist.findSome? (fun name =>
    if mapContains st.margs name then some (.conflict name)
    else
      match alookup sch.groups name with
      | some grp =>
        grp.args.findSome? (fun n =>
          if mapContains st.margs n then some (.conflict n) else none)
      | none => none)

/-- Does some blacklisted name of this declaration (or a member of a group
it names) appear in the matches?  The demotion test of
`validate_required`. -/
def blacklistSatisfied (sch : Schema) (st : ParseState)
    (bl : Option (List Str)) : Bool :=
  match bl with
  | some l => l.any (fun n =>
      mapContains st.margs n ||
        (match alookup sch.groups n with
         | some grp => grp.args.any (fun an => mapContains st.margs an)
         | none => false))
  | none => false

/-- `validate_required`: `true` means the "required arguments were not
supplied" error fires.  The positional branch is verbatim from `app.rs`;
the flag and option branches come from the `validate_reqs!` macro, whose
defining file is not among the provided sources — they are modelled from
the spec (§4.3.4: a required name whose declaration has an
already-matched blacklist entry is considered satisfied / demoted),
mirroring the in-source positional branch. -/
def validateRequired (sch : Schema) (st : ParseState) : Bool :=
  ¬ st.required.any (fun name =>
      (match alookup sch.flags name with
       | some f => blacklistSatisfied sch st f.blacklist
       | none => false)
    || (match alookup sch.opts name with
        | some o => blacklistSatisfied sch st o.blacklist
        | none => false)
    || (match (sch.positionals.find? (fun p => p.2.name = name)).map Prod.snd with
        | some p => blacklistSatisfied sch st p.blacklist
        | none => false))

/-! ## `create_help_and_version` and the full engine -/

/-- The injected `--help` flag. -/
def helpFlag (withShort : Bool) : FlagBuilder :=
  { name := str "hclap_help",
    short := if withShort then some 'h' else none,
    long := some (str "help"),
    help := some (str "Prints help information"),
    multiple := false, blacklist := none, requires := none }

/-- The injected `--version` flag. -/
def versionFlag (withShort : Bool) : FlagBuilder :=
  { name := str "vclap_version",
    short := if withShort then some 'v' else none,
    long := some (str "version"),
    help := some (str "Prints version information"),
    multiple := false, blacklist := none, requires := none }

/-- The flag insertions of `create_help_and_version` (the subcommand
injection needs the `App` level and is done in `getMatchesFrom`). -/
def createHelpAndVersion (sch : Schema) : Schema :=
  let f1 := insertSorted (str "hclap_help") (helpFlag sch.needsShortHelp) sch.flags
  let sch := if sch.needsLongHelp then { sch with flags := f1 } else sch
  let f2 := insertSorted (str "vclap_version") (versionFlag sch.needsShortVersion) sch.flags
  if sch.needsLongVersion then { sch with flags := f2 } else sch

/-- A fresh `Schema` as produced by `App::new`. -/
def emptySchema : Schema :=
  { flags := [], opts := [], positionals := [], groups := [],
    needsLongHelp := true, needsLongVersion := true,
    needsShortHelp := true, needsShortVersion := true }

/-- The auto-injected `help` subcommand (`App::new("help")`). -/
def helpApp : App :=
  .mk (str "help") emptySchema true [] [] [] none []

def App.setBinName : App → Str → App
  | .mk n sch nsh r mr bl _ subs, b => .mk n sch nsh r mr bl (some b) subs

def App.binName : App → Option Str
  | .mk _ _ _ _ _ _ b _ => b

/-- `format!("{}{}{}", bin.unwrap_or(""), if bin.is_some() {" "} else {""}, name)`. -/
def qualifyBin (parent : Option Str) (child : Str) : Str :=
  match parent with
  | some b => b ++ [' '] ++ child
  | none => child

/-- Generic association lookup over the subcommand store. -/
def subLookup (m : List (Str × App)) (k : Str) : Option App :=
  (m.find? (fun p => p.1 = k)).map Prod.snd

/-- Sorted insert into the subcommand store. -/
def subInsertSorted (k : Str) (v : App) : List (Str × App) → List (Str × App)
  | [] => [(k, v)]
  | (k', v') :: rest =>
    if strLt k k' then (k, v) :: (k', v') :: rest
    else if k = k' then (k, v) :: rest
    else (k', v') :: subInsertSorted k v rest

/-- `get_matches_from`: the full engine for one command, recursing into
the matched subcommand.  `fuel` bounds the recursion depth of the model
(any value larger than the subcommand nesting depth is enough). -/
def getMatchesFrom : Nat → App → List Str → Except Halt ArgMatches
  | 0, _, _ => .error .fuelOut
  | fuel + 1, .mk name sch nsh req mreq bl bin subs, tokens =>
    let sch1 := createHelpAndVersion sch
    let subs1 := if nsh ∧ ¬ subs.isEmpty
      then subInsertSorted (str "help") helpApp subs else subs
    let st0 : ParseState :=
      { margs := [], required := req, matchedReqs := mreq, blacklist := bl,
        posOnly := false, posCounter := 1, needsValOf := none }
    match parseLoop sch1 (subs1.map Prod.fst) st0 tokens with
    | .error h => .error h
    | .ok ex =>
      let st := match ex with
        | .fin st => st
        | .subc _ st _ => st
      let subI : Option (Str × List Str) := match ex with
        | .fin _ => none
        | .subc n _ rest => some (n, rest)
      match st.needsValOf with
      | some a => .error (.perr (.missingValue a))
      | none =>
        match validateBlacklist sch1 st with
        | some e => .error (.perr e)
        | none =>
          if ¬ st.required.isEmpty ∧ validateRequired sch1 st then
            .error (.perr .missingRequired)
          else
            match subI with
            | none => .ok (.mk st.margs none)
            | some (scName, rest) =>
              match subLookup subs1 scName with
              | some sc =>
                let sc' := sc.setBinName (qualifyBin bin name)
                match getMatchesFrom fuel sc' rest with
                | .ok m => .ok (.mk st.margs (some (sc.name, m)))
                | .error h => .error h
              | none => .ok (.mk st.margs none)

/-! ## `Arg::from_usage` (`args/arg.rs`)

The usage *tokenizer* (`UsageParser`, module `usageparser`) is in a source
file that is not provided; the assembler below consumes its token stream,
exactly mirroring the `for_match!` arms of `Arg::from_usage`. -/

inductive UsageToken where
  | name (text : Str) (req : Option Bool)
  | short (c : Char)
  | long (text : Str)
  | help (text : Str)
  | multiple
  deriving DecidableEq, Repr

/-- The accumulator of `Arg::from_usage` (the final `Arg` is built from
exactly these locals). -/
structure UsageArg where
  name : Option Str
  short : Option Char
  long : Option Str
  help : Option Str
  required : Bool
  takes_value : Bool
  multiple : Bool
  deriving DecidableEq, Repr

def initUsageArg : UsageArg :=
  { name := none, short := none, long := none, help := none,
    required := false, takes_value := false, multiple := false }

/-- One `for_match!` arm application. -/
def fromUsageStep (st : UsageArg) (tok : UsageToken) : UsageArg :=
  match tok with
  | .name n req =>
    let st :=
      match st.name with
      | none =>
        { st with name := some n,
                  required := match req with | some r => r | none => st.required }
      | some nm =>
        match st.long with
        | some l =>
          if l = nm then
            { st with name := some n,
                      required := match req with | some r => r | none => st.required }
          else if n ≠ l then { st with name := some n }
          else st
        | none => st
    if st.short.isSome || st.long.isSome then { st with takes_value := true } else st
  | .short c => { st with short := some c }
  | .long l =>
    { st with long := some l,
              name := match st.name with | none => some l | some nm => some nm }
  | .help h => { st with help := some h }
  | .multiple => { st with multiple := true }

/-- `Arg::from_usage`, as a function of the tokenizer's output stream. -/
def fromUsageTokens (toks : List UsageToken) : UsageArg :=
  toks.foldl fromUsageStep initUsageArg

/-! ## `verify_positionals` -/

/-- The two `panic!` sites of `verify_positionals`. -/
inductive VerifyErr where
  | gapIndex (name : Str)
  | multipleNotLast (name : Str)
  deriving DecidableEq, Repr

/-- The gap check: the highest stored index must equal the number of
positionals (`positionals_idx` is key-sorted, so the last entry has the
highest key). -/
def posIndexCheck (pos : List (Nat × PosBuilder)) : Bool :=
  match pos.getLast? with
  | none => true
  | some (idx, _) => idx = pos.length

/-- The required-prefix marking loop, which walks the positionals in
*descending* index order (`iter_mut().rev()`); this function therefore
takes the reversed store.  Returns the rewritten (still reversed) store
and the names newly inserted into the required set. -/
def markReqRev (found : Bool) :
    List (Nat × PosBuilder) → List (Nat × PosBuilder) × List Str
  | [] => ([], [])
  | (i, p) :: rest =>
    if found then
      ((i, { p with required := true }) :: (markReqRev true rest).1,
       p.name :: (markReqRev true rest).2)
    else
      ((i, p) :: (markReqRev p.required rest).1, (markReqRev p.required rest).2)

/-- `verify_positionals` on the fields it touches: the positional store
and the command's required set. -/
def verifyPositionals (pos : List (Nat × PosBuilder)) (req : List Str) :
    Except VerifyErr (List (Nat × PosBuilder) × List Str) :=
  match pos.getLast? with
  | some (idx, p) =>
    if idx ≠ pos.length then .error (.gapIndex p.name)
    else verifyRest pos req
  | none => verifyRest pos req
where
  verifyRest (pos : List (Nat × PosBuilder)) (req : List Str) :
      Except VerifyErr (List (Nat × PosBuilder) × List Str) :=
    match (pos.filter (fun q => q.2.multiple)).find?
        (fun q => q.2.index ≠ pos.length) with
    | some q => .error (.multipleNotLast q.2.name)
    | none =>
      .ok ((markReqRev false pos.reverse).1.reverse,
           (markReqRev false pos.reverse).2.foldl insertSet req)

/-! ## Concrete example commands used in the theorems below -/

/-- Convenience constructor for a flag declaration. -/
def flagB (n : String) (sh : Option Char) (lg : Option String)
    (bl : Option (List String)) (mult : Bool) : FlagBuilder :=
  { name := str n, short := sh, long := lg.map str, help := none,
    multiple := mult, blacklist := bl.map (fun l => l.map str), requires := none }

/-- Convenience constructor for an option declaration. -/
def optB (n : String) (sh : Option Char) (lg : Option String)
    (pv : Option (List String)) (mult : Bool) : OptBuilder :=
  { name := str n, short := sh, long := lg.map str, help := none,
    multiple := mult, blacklist := none,
    possible_vals := pv.map (fun l => l.map str), requires := none,
    required := false }

/-- Convenience constructor for a positional declaration. -/
def posB (n : String) (i : Nat) (req mult : Bool) : PosBuilder :=
  { name := str n, index := i, required := req, multiple := mult,
    blacklist := none, requires := none, possible_vals := none, help := none }

/-- `a` occurs strictly before `b` in the list `l` (both present).  Help
rendering iterates the flag store in list order, so this captures
"renders before". -/
def idxOf (a : Str) : List Str → Nat
  | [] => 0
  | b :: t => if a = b then 0 else idxOf a t + 1

def beforeIn (l : List Str) (a b : Str) : Prop :=
  a ∈ l ∧ b ∈ l ∧ idxOf a l < idxOf b l

instance (l : List Str) (a b : Str) : Decidable (beforeIn l a b) := by
  unfold beforeIn; infer_instance

/-- A schema owning the single user flag `--zebra`. -/
def zebraSchema : Schema :=
  { flags := [(str "zebra", flagB "zebra" none (some "zebra") none false)],
    opts := [], positionals := [], groups := [],
    needsLongHelp := true, needsLongVersion := true,
    needsShortHelp := true, needsShortVersion := true }

/-- A command with a single `--mode` option whose `possible_vals` are
`{"fast","slow"}` (spec scenario 5). -/
def modeApp : App :=
  .mk (str "prog")
    { flags := [], opts := [(str "mode", optB "mode" none (some "mode") (some ["fast", "slow"]) false)],
      positionals := [], groups := [],
      needsLongHelp := true, needsLongVersion := true,
      needsShortHelp := true, needsShortVersion := true }
    true [] [] [] none []

/-- The `config` subcommand with a required `<file>` positional
(spec scenario 6). -/
def configApp : App :=
  .mk (str "config")
    { flags := [], opts := [], positionals := [(1, posB "file" 1 true false)],
      groups := [],
      needsLongHelp := true, needsLongVersion := true,
      needsShortHelp := true, needsShortVersion := true }
    true [str "file"] [] [] none []

/-- A parent command owning the `config` subcommand. -/
def progApp : App :=
  .mk (str "prog")
    { flags := [], opts := [], positionals := [], groups := [],
      needsLongHelp := true, needsLongVersion := true,
      needsShortHelp := true, needsShortVersion := true }
    true [] [] [] none [(str "config", configApp)]

/-- A well-formed stored `long` text: nonempty, no leading dash (the
builder strips leading dashes on registration), and no `=` (which the
engine would split on). -/
def longOk (l : Str) : Bool :=
  match l with
  | [] => false
  | c :: cs => decide (c ≠ '-') && !((c :: cs).contains '=')

/-- The schema of a command with two long flags `A` (conflicting with
the name `nb` through its blacklist) and `B`; the auto help/version
flags were claimed by the user (`needs* = false`), leaving the stores
exactly these two flags. -/
def conflictSchema (na nb la lb : Str) (blA : List Str) : Schema :=
  { flags :=
      [(na, { name := na, short := none, long := some la, help := none,
              multiple := false, blacklist := some blA, requires := none }),
       (nb, { name := nb, short := none, long := some lb, help := none,
              multiple := false, blacklist := none, requires := none })],
    opts := [], positionals := [], groups := [],
    needsLongHelp := false, needsLongVersion := false,
    needsShortHelp := false, needsShortVersion := false }

/-- The command owning `conflictSchema`. -/
def conflictApp (na nb la lb : Str) (blA : List Str) : App :=
  .mk (str "prog") (conflictSchema na nb la lb blA) false [] [] [] none []

/-- A command whose only declared argument is one option, keyed by its
name; the auto help/version flags were claimed by the user. -/
def optSchema (ob : OptBuilder) : Schema :=
  { flags := [], opts := [(ob.name, ob)], positionals := [], groups := [],
    needsLongHelp := false, needsLongVersion := false,
    needsShortHelp := false, needsShortVersion := false }

/-- The command owning `optSchema`. -/
def optApp (ob : OptBuilder) : App :=
  .mk (str "prog") (optSchema ob) false [] [] [] none []

/-- A command with three short flags `-a` `-b` `-c` and one short option
`-o`; the auto help/version flags were claimed by the user. -/
def shortSchema : Schema :=
  { flags :=
      [(str "fa", flagB "fa" (some 'a') none none false),
       (str "fb", flagB "fb" (some 'b') none none false),
       (str "fc", flagB "fc" (some 'c') none none false)],
    opts := [(str "fo", optB "fo" (some 'o') none none false)],
    positionals := [], groups := [],
    needsLongHelp := false, needsLongVersion := false,
    needsShortHelp := false, needsShortVersion := false }

/-- Every recorded argument of a match result, at every subcommand
level, has at least one occurrence (§ of claim C9). -/
def allOcc : ArgMatches → Bool
  | .mk args sub =>
    args.all (fun p => 1 ≤ p.2.occurrences) &&
    (match sub with
     | none => true
     | some (_, m) => allOcc m)

/-- Keys of the option store are the builders' names: `arg()` registers
an `OptBuilder` under `a.name`, so every store built through the public
API satisfies this. -/
def optsWF (opts : List (Str × OptBuilder)) : Bool :=
  opts.all (fun p => p.1 = p.2.name)

/-- `optsWF` for the command and (to the given depth) every
subcommand. -/
def appOptsWFN : Nat → App → Bool
  | 0, _ => true
  | fuel + 1, .mk _ sch _ _ _ _ _ subs =>
    optsWF sch.opts && subs.all (fun p => appOptsWFN fuel p.2)

/-- The running-state invariant behind claim C9: every recorded entry
has at least one occurrence except possibly the one option still
awaiting its value; a pending name resolves in the option store to a
builder of that name; positional-only mode never has a pending value. -/
def stInv (sch : Schema) (st : ParseState) : Prop :=
  (∀ p ∈ st.margs, 1 ≤ p.2.occurrences ∨ some p.1 = st.needsValOf)
  ∧ (∀ n, st.needsValOf = some n → ∃ v, alookup sch.opts n = some v ∧ v.name = n)
  ∧ (st.posOnly = true → st.needsValOf = none)

/-! # Theorems -/

/-- C1: the specification says that supplying an option declared with
`possible_vals = {"fast","slow"}` an inline value outside that set
(`--mode=medium`, first and only occurrence) fails with the
"isn't a valid value" error, the inline value being validated at every
occurrence including the first.  The code does not: in `parse_long_arg`
the possible-values check sits inside the already-matched branch, so a
first-occurrence inline value is recorded unvalidated and the parse
succeeds, while the separate-token form (`--mode medium`) is validated
and fails.  This theorem evaluates the engine on the claim's failing
input and on the separate-token form. -/
theorem c1_inline_possible_vals_unchecked :
    getMatchesFrom 1 modeApp [str "--mode=medium"]
      = .ok (.mk [(str "mode", ⟨1, some [str "medium"]⟩)] none)
    ∧ getMatchesFrom 1 modeApp [str "--mode", str "medium"]
      = .error (.perr (.invalidValue (str "medium") (str "mode"))) :=
  ⟨rfl, rfl⟩

/-- C2: the claim (and the doc comment of `Arg::from_usage` itself, which
promises that an explicit first name such as `conf` in
`"[conf] --config=[c]"` wins over the value placeholder) says that when
the first `Name` differs from the `Long`, the first name is kept.  The
code instead overwrites the name with the second `Name` whenever that
second name also differs from the long: on the token stream of
`"[conf] --config=[c]"` the resulting argument is named `c`, not `conf`. -/
theorem c2_second_name_overrides_despite_distinct_first_name :
    (fromUsageTokens [.name (str "conf") (some false), .long (str "config"),
        .name (str "c") (some false)]).name = some (str "c")
    ∧ str "c" ≠ str "conf" :=
  ⟨rfl, by decide⟩

/-- C3 counterexample: the claim that *every* user-supplied flag name
sorts before the injected `hclap_help` is false: the user flag `zebra`
sorts after both injected flags in the key-sorted store, so it renders
after them. -/
theorem c3_user_flag_can_render_after_injected :
    ((createHelpAndVersion zebraSchema).flags.map Prod.fst
      = [str "hclap_help", str "vclap_version", str "zebra"])
    ∧ ¬ beforeIn ((createHelpAndVersion zebraSchema).flags.map Prod.fst)
        (str "zebra") (str "hclap_help") := by
  constructor
  · rfl
  · decide

/-- C6 counterexample: `--opt val` and `--opt=val` do *not* always
produce identical match entries: against `possible_vals` the
separate-token form is validated and fails while the inline form is
recorded unvalidated and succeeds. -/
theorem c6_value_forms_can_differ :
    getMatchesFrom 1 modeApp [str "--mode", str "medium"]
      = .error (.perr (.invalidValue (str "medium") (str "mode")))
    ∧ getMatchesFrom 1 modeApp [str "--mode=medium"]
      = .ok (.mk [(str "mode", ⟨1, some [str "medium"]⟩)] none)
    ∧ getMatchesFrom 1 modeApp [str "--mode", str "medium"]
      ≠ getMatchesFrom 1 modeApp [str "--mode=medium"] := by
  refine ⟨rfl, rfl, fun h => ?_⟩
  rw [show getMatchesFrom 1 modeApp [str "--mode", str "medium"]
      = Except.error (.perr (.invalidValue (str "medium") (str "mode"))) from rfl,
    show getMatchesFrom 1 modeApp [str "--mode=medium"]
      = Except.ok (ArgMatches.mk [(str "mode", ⟨1, some [str "medium"]⟩)] none) from rfl] at h
  exact Except.noConfusion h

/-- C8 counterexample: the pre-flight check does not reject *every*
non-contiguous index set: it only compares the highest index with the
store size, so the schema with indices `{0, 2}` (not of the form
`1..=N`) passes `verify_positionals` untouched. -/
theorem c8_zero_index_defeats_gap_check :
    verifyPositionals [(0, posB "p0" 0 false false), (2, posB "p2" 2 false false)] []
      = .ok ([(0, posB "p0" 0 false false), (2, posB "p2" 2 false false)], [])
    ∧ [(0 : Nat), 2] ≠ List.range' 1 2 := by
  constructor
  · rfl
  · decide

/-! ## Set-insertion lemmas -/

theorem mem_insertSet {l : List Str} {x : Str} (y : Str) (h : x ∈ l) :
    x ∈ insertSet l y := by
  unfold insertSet; split
  · exact h
  · exact List.mem_append_left _ h

theorem self_mem_insertSet (l : List Str) (x : Str) : x ∈ insertSet l x := by
  unfold insertSet; split
  · assumption
  · exact List.mem_append_right _ (by simp)

theorem mem_foldl_insertSet_init {ns req : List Str} {x : Str} (h : x ∈ req) :
    x ∈ ns.foldl insertSet req := by
  induction ns generalizing req with
  | nil => exact h
  | cons a tl ih => exact ih (mem_insertSet a h)

theorem mem_foldl_insertSet {ns req : List Str} {x : Str} (h : x ∈ ns) :
    x ∈ ns.foldl insertSet req := by
  induction ns generalizing req with
  | nil => cases h
  | cons a tl ih =>
    rcases List.mem_cons.mp h with rfl | h
    · simp only [List.foldl_cons]
      exact mem_foldl_insertSet_init (self_mem_insertSet _ _)
    · exact ih h

/-! ## `verify_positionals` lemmas (claims C7, C8) -/

/-- Once the marking loop has seen a required positional, everything
later in the walk is marked required and its name is collected. -/
theorem markReqRev_true_mem {l : List (Nat × PosBuilder)} :
    ∀ q ∈ (markReqRev true l).1,
      q.2.required = true ∧ q.2.name ∈ (markReqRev true l).2 := by
  induction l with
  | nil => intro q hq; simp [markReqRev] at hq
  | cons hd tl ih =>
    obtain ⟨i, p⟩ := hd
    intro q hq
    simp only [markReqRev, if_pos rfl] at hq ⊢
    rcases List.mem_cons.mp hq with rfl | hq
    · exact ⟨rfl, List.mem_cons_self _ _⟩
    · obtain ⟨h1, h2⟩ := ih q hq
      exact ⟨h1, List.mem_cons_of_mem _ h2⟩

/-- Core of the required-prefix rule, on the *descending* (reversed)
positional store: if `(k, p)` is a required entry then every entry with
index at most `k` comes out of the marking loop required, its name
either newly collected or already present in the input entry. -/
theorem markReqRev_false_mem {l : List (Nat × PosBuilder)}
    (hsorted : List.Pairwise (fun a b => a.1 > b.1) l)
    {k : Nat} {p : PosBuilder} (hk : (k, p) ∈ l) (hpreq : p.required = true) :
    ∀ q ∈ (markReqRev false l).1, q.1 ≤ k →
      q.2.required = true ∧ (q.2.name ∈ (markReqRev false l).2 ∨ q ∈ l) := by
  induction l with
  | nil => cases hk
  | cons hd tl ih =>
    obtain ⟨i, p₀⟩ := hd
    obtain ⟨hhead, htail⟩ := List.pairwise_cons.mp hsorted
    intro q hq hqk
    simp only [markReqRev, Bool.false_eq_true, if_false] at hq ⊢
    rcases List.mem_cons.mp hk with heq | hk'
    · -- the required entry is the head
      obtain ⟨rfl, rfl⟩ := Prod.ext_iff.mp heq
      rw [hpreq] at hq ⊢
      rcases List.mem_cons.mp hq with rfl | hq
      · exact ⟨hpreq, Or.inr (List.mem_cons_self _ _)⟩
      · obtain ⟨h1, h2⟩ := markReqRev_true_mem q hq
        exact ⟨h1, Or.inl h2⟩
    · -- the required entry is in the tail, so the head index exceeds k
      have hik : i > k := hhead _ hk'
      rcases List.mem_cons.mp hq with rfl | hq
      · exact absurd hqk (by omega)
      · cases hreq0 : p₀.required with
        | true =>
          rw [hreq0] at hq
          obtain ⟨h1, h2⟩ := markReqRev_true_mem q hq
          exact ⟨h1, Or.inl h2⟩
        | false =>
          rw [hreq0] at hq
          obtain ⟨h1, h2⟩ := ih htail hk' q hq hqk
          exact ⟨h1, h2.imp id (List.mem_cons_of_mem _)⟩

/-- A successful `verify_positionals` run returns exactly the output of
the marking loop. -/
theorem verifyPositionals_ok {pos : List (Nat × PosBuilder)} {req : List Str}
    {res : List (Nat × PosBuilder) × List Str}
    (h : verifyPositionals pos req = .ok res) :
    res = ((markReqRev false pos.reverse).1.reverse,
           (markReqRev false pos.reverse).2.foldl insertSet req) := by
  unfold verifyPositionals at h
  split at h
  · split at h
    · cases h
    · unfold verifyPositionals.verifyRest at h
      split at h
      · cases h
      · exact (Except.ok.inj h).symm
  · unfold verifyPositionals.verifyRest at h
    split at h
    · cases h
    · exact (Except.ok.inj h).symm

/-- C7: `verify_positionals` applies the required-prefix rule: on any
schema it accepts (positional store sorted by index, required positionals
registered in the required set, as registration guarantees), if the
positional at index `k` is required then after pre-flight every
positional with index `≤ k` is marked required and its name is in the
required set. -/
theorem c7_required_prefix_rule
    {pos pos' : List (Nat × PosBuilder)} {req req' : List Str}
    (hok : verifyPositionals pos req = .ok (pos', req'))
    (hsorted : List.Pairwise (fun a b => a.1 < b.1) pos)
    (hreg : ∀ q ∈ pos, q.2.required = true → q.2.name ∈ req)
    {k : Nat} {p : PosBuilder}
    (hk : (k, p) ∈ pos) (hpreq : p.required = true) :
    ∀ q ∈ pos', q.1 ≤ k → q.2.required = true ∧ q.2.name ∈ req' := by
  have hshape := verifyPositionals_ok hok
  obtain ⟨h1, h2⟩ := Prod.ext_iff.mp hshape
  subst h1; subst h2
  have hrev : List.Pairwise (fun a b : Nat × PosBuilder => a.1 > b.1) pos.reverse := by
    rw [List.pairwise_reverse]; exact hsorted
  intro q hq hqk
  have hq' : q ∈ (markReqRev false pos.reverse).1 := List.mem_reverse.mp hq
  obtain ⟨hr, hn⟩ := markReqRev_false_mem hrev (List.mem_reverse.mpr hk) hpreq q hq' hqk
  refine ⟨hr, ?_⟩
  rcases hn with hn | hn
  · exact mem_foldl_insertSet hn
  · exact mem_foldl_insertSet_init (hreg q (List.mem_reverse.mp hn) hr)

/-- C7 witness: the spec's own instance — positional 2 required,
positional 1 optional — makes positional 1 required (and registered)
after pre-flight. -/
theorem c7_witness :
    verifyPositionals [(1, posB "one" 1 false false), (2, posB "two" 2 true false)] [str "two"]
      = .ok ([(1, posB "one" 1 true false), (2, posB "two" 2 true false)],
             [str "two", str "one"])
    ∧ (posB "one" 1 true false).required = true ∧ str "one" ∈ [str "two", str "one"] := by
  have h := @c7_required_prefix_rule
    [(1, posB "one" 1 false false), (2, posB "two" 2 true false)]
    [(1, posB "one" 1 true false), (2, posB "two" 2 true false)]
    [str "two"]
    [str "two", str "one"]
    rfl
    (by decide)
    (by decide)
    2 (posB "two" 2 true false) (by decide) rfl
    (1, posB "one" 1 true false) (by decide) (by decide)
  exact ⟨rfl, h.1, h.2⟩

/-- A strictly descending list of `n` naturals drawn from `1..=n` can
only be `n, n-1, …, 1`. -/
theorem desc_bounded_eq {l : List Nat} {n : Nat}
    (hd : List.Pairwise (fun a b => a > b) l)
    (hb : ∀ x ∈ l, 1 ≤ x ∧ x ≤ n)
    (hl : l.length = n) : l = (List.range' 1 n).reverse := by
  induction l generalizing n with
  | nil => subst hl; rfl
  | cons h t ih =>
    obtain ⟨hh, ht⟩ := List.pairwise_cons.mp hd
    subst hl
    have hhb := hb h (List.mem_cons_self _ _)
    have ht' : t = (List.range' 1 t.length).reverse := by
      refine ih ht (fun x hx => ⟨(hb x (List.mem_cons_of_mem _ hx)).1, ?_⟩) rfl
      have := hh x hx
      simp only [List.length_cons] at hhb
      omega
    have hhead : h = t.length + 1 := by
      cases hcase : t.length with
      | zero =>
        simp only [List.length_cons, hcase] at hhb
        omega
      | succ m =>
        have hmem : m + 1 ∈ t := by
          rw [ht', hcase, List.mem_reverse, List.mem_range'_1]
          omega
        have := hh _ hmem
        simp only [List.length_cons, hcase] at hhb
        omega
    rw [List.length_cons, List.range'_concat, List.reverse_append, ht', hhead]
    simp
    omega

/-- C8 (amended): the gap check of `verify_positionals` compares the
highest index with the store size; on a key-sorted store whose indices
are all at least 1 — which builder-driven registration produces — this
passes exactly for the contiguous index sequence `1..=N` (so `{1,3}` is
rejected and every contiguous schema passes), but an explicit index 0
defeats it. -/
theorem c8_gap_check_iff_contiguous
    {pos : List (Nat × PosBuilder)}
    (hsorted : List.Pairwise (fun a b => a.1 < b.1) pos)
    (hone : ∀ q ∈ pos, 1 ≤ q.1) :
    posIndexCheck pos = true ↔ pos.map Prod.fst = List.range' 1 pos.length := by
  have hkeys : (pos.map Prod.fst).getLast? = pos.getLast?.map Prod.fst := by
    rw [List.getLast?_map]
  constructor
  · intro hchk
    unfold posIndexCheck at hchk
    cases hlast : pos.getLast? with
    | none =>
      rw [List.getLast?_eq_none_iff] at hlast
      subst hlast; rfl
    | some q =>
      rw [hlast] at hchk
      obtain ⟨idx, p⟩ := q
      simp only [decide_eq_true_eq] at hchk
      have hrev : List.Pairwise (fun a b : Nat => a > b) (pos.map Prod.fst).reverse := by
        rw [List.pairwise_reverse, List.pairwise_map]
        exact hsorted
      have hlast' : (pos.map Prod.fst).reverse.head? = some idx := by
        rw [List.head?_reverse, hkeys, hlast]
        rfl
      have hbound : ∀ x ∈ (pos.map Prod.fst).reverse, 1 ≤ x ∧ x ≤ idx := by
        intro x hx
        rw [List.mem_reverse] at hx
        refine ⟨?_, ?_⟩
        · obtain ⟨q', hq', rfl⟩ := List.mem_map.mp hx
          exact hone q' hq'
        · cases hrcase : (pos.map Prod.fst).reverse with
          | nil => rw [← List.mem_reverse, hrcase] at hx; cases hx
          | cons y ys =>
            rw [hrcase] at hlast'
            obtain rfl : y = idx := by simpa using hlast'
            rw [← List.mem_reverse, hrcase] at hx
            rcases List.mem_cons.mp hx with rfl | hx
            · exact le_refl _
            · obtain ⟨hhy, -⟩ := List.pairwise_cons.mp (hrcase ▸ hrev)
              exact Nat.le_of_lt (hhy x hx)
      have := desc_bounded_eq hrev (hchk ▸ hbound)
        (by rw [List.length_reverse, List.length_map])
      have hfin : (pos.map Prod.fst).reverse.reverse
          = (List.range' 1 pos.length).reverse.reverse := by rw [this]
      simpa using hfin
  · intro heq
    unfold posIndexCheck
    cases hlast : pos.getLast? with
    | none => rfl
    | some q =>
      have hne : pos ≠ [] := by
        intro hnil; rw [hnil] at hlast; cases hlast
      have hlen : pos.length ≠ 0 := by
        simpa [List.length_eq_zero] using hne
      obtain ⟨m, hm⟩ := Nat.exists_eq_succ_of_ne_zero hlen
      have : (pos.map Prod.fst).getLast? = some pos.length := by
        rw [heq, hm, List.range'_concat, List.getLast?_concat]
        simp [hm]
        omega
      rw [hkeys, hlast] at this
      obtain ⟨idx, p⟩ := q
      simp only [Option.map_some', Option.some.injEq] at this
      simp [this]

/-- C8 witness: the spec's instance `{1,3}` is rejected by the gap
check, and the contiguous store `{1,2}` passes it. -/
theorem c8_witness :
    (List.Pairwise (fun a b : Nat × PosBuilder => a.1 < b.1)
        [(1, posB "p1" 1 false false), (3, posB "p3" 3 false false)]
      ∧ posIndexCheck [(1, posB "p1" 1 false false), (3, posB "p3" 3 false false)] ≠ true)
    ∧ posIndexCheck [(1, posB "p1" 1 false false), (2, posB "p2" 2 false false)] = true := by
  refine ⟨⟨by decide, ?_⟩, by decide⟩
  have h := @c8_gap_check_iff_contiguous
    [(1, posB "p1" 1 false false), (3, posB "p3" 3 false false)]
    (by decide) (by decide)
  intro hc
  have := h.mp hc
  revert this
  decide

/-! ## `strLt` order lemmas and sorted-store lemmas (claim C3) -/

theorem strLt_irrefl : ∀ a : Str, strLt a a = false := by
  intro a
  induction a with
  | nil => rfl
  | cons c cs ih => simp [strLt, ih]

theorem strLt_ne {a b : Str} (h : strLt a b = true) : a ≠ b := by
  intro hab; rw [hab, strLt_irrefl] at h; cases h

theorem strLt_trans : ∀ {a b c : Str},
    strLt a b = true → strLt b c = true → strLt a c = true := by
  intro a
  induction a with
  | nil =>
    intro b c hab hbc
    cases b with
    | nil => cases hab
    | cons y ys =>
      cases c with
      | nil => cases hbc
      | cons z zs => rfl
  | cons x xs ih =>
    intro b c hab hbc
    cases b with
    | nil => cases hab
    | cons y ys =>
      cases c with
      | nil => cases hbc
      | cons z zs =>
        simp only [strLt, Bool.or_eq_true, Bool.and_eq_true, decide_eq_true_eq] at hab hbc ⊢
        rcases hab with hxy | ⟨rfl, hxs⟩
        · rcases hbc with hyz | ⟨rfl, hys⟩
          · exact Or.inl (lt_trans hxy hyz)
          · exact Or.inl hxy
        · rcases hbc with hyz | ⟨rfl, hys⟩
          · exact Or.inl hyz
          · exact Or.inr ⟨rfl, ih hxs hys⟩

theorem strLt_total : ∀ {a b : Str}, a ≠ b → strLt a b = true ∨ strLt b a = true := by
  intro a
  induction a with
  | nil =>
    intro b hne
    cases b with
    | nil => exact absurd rfl hne
    | cons y ys => exact Or.inl rfl
  | cons x xs ih =>
    intro b hne
    cases b with
    | nil => exact Or.inr rfl
    | cons y ys =>
      by_cases hxy : x = y
      · subst hxy
        have hne' : xs ≠ ys := by intro h; exact hne (by rw [h])
        rcases ih hne' with h | h
        · exact Or.inl (by simp [strLt, h])
        · exact Or.inr (by simp [strLt, h])
      · rcases lt_or_gt_of_ne hxy with h | h
        · exact Or.inl (by simp [strLt, h])
        · exact Or.inr (by simp [strLt, h])

/-- Keys of a sorted insert: the inserted key. -/
theorem mem_keys_insertSorted_self {α : Type} (k : Str) (v : α) :
    ∀ l : List (Str × α), k ∈ (insertSorted k v l).map Prod.fst := by
  intro l
  induction l with
  | nil => exact List.mem_cons_self _ _
  | cons hd tl ih =>
    obtain ⟨k', v'⟩ := hd
    simp only [insertSorted]
    by_cases h1 : strLt k k' = true
    · rw [if_pos h1, List.map_cons]
      exact List.mem_cons_self _ _
    · rw [if_neg h1]
      by_cases h2 : k = k'
      · rw [if_pos h2, List.map_cons]
        exact List.mem_cons_self _ _
      · rw [if_neg h2, List.map_cons]
        exact List.mem_cons_of_mem _ ih

/-- Keys of a sorted insert: every old key other than the inserted one
survives. -/
theorem mem_keys_insertSorted {α : Type} {k a : Str} (v : α)
    {l : List (Str × α)} (ha : a ∈ l.map Prod.fst) (hne : a ≠ k) :
    a ∈ (insertSorted k v l).map Prod.fst := by
  induction l with
  | nil => cases ha
  | cons hd tl ih =>
    obtain ⟨k', v'⟩ := hd
    rw [List.map_cons] at ha
    simp only [insertSorted]
    by_cases h1 : strLt k k' = true
    · rw [if_pos h1, List.map_cons, List.map_cons]
      exact List.mem_cons_of_mem _ ha
    · rw [if_neg h1]
      by_cases h2 : k = k'
      · rw [if_pos h2, List.map_cons]
        rcases List.mem_cons.mp ha with haeq | ha'
        · exact absurd (haeq.trans h2.symm) hne
        · exact List.mem_cons_of_mem _ ha'
      · rw [if_neg h2, List.map_cons]
        rcases List.mem_cons.mp ha with haeq | ha'
        · exact haeq ▸ List.mem_cons_self _ _
        · exact List.mem_cons_of_mem _ (ih ha')

/-- Every key of a sorted insert is the new key or an old one. -/
theorem keys_insertSorted_sub {α : Type} {k a : Str} (v : α)
    {l : List (Str × α)} (ha : a ∈ (insertSorted k v l).map Prod.fst) :
    a = k ∨ a ∈ l.map Prod.fst := by
  induction l with
  | nil =>
    rcases List.mem_cons.mp ha with h | h
    · exact Or.inl h
    · cases h
  | cons hd tl ih =>
    obtain ⟨k', v'⟩ := hd
    simp only [insertSorted] at ha
    by_cases h1 : strLt k k' = true
    · rw [if_pos h1, List.map_cons, List.map_cons] at ha
      rcases List.mem_cons.mp ha with h | h
      · exact Or.inl h
      · exact Or.inr h
    · rw [if_neg h1] at ha
      by_cases h2 : k = k'
      · rw [if_pos h2, List.map_cons] at ha
        rcases List.mem_cons.mp ha with h | h
        · exact Or.inl h
        · exact Or.inr (List.map_cons Prod.fst (k', v') tl ▸ List.mem_cons_of_mem _ h)
      · rw [if_neg h2, List.map_cons] at ha
        rcases List.mem_cons.mp ha with h | h
        · exact Or.inr (by rw [List.map_cons]; exact h ▸ List.mem_cons_self _ _)
        · rcases ih h with h' | h'
          · exact Or.inl h'
          · exact Or.inr (by rw [List.map_cons]; exact List.mem_cons_of_mem _ h')

/-- Sorted insert preserves key-sortedness. -/
theorem insertSorted_pairwise {α : Type} {k : Str} (v : α)
    {l : List (Str × α)}
    (hs : List.Pairwise (fun p q : Str × α => strLt p.1 q.1 = true) l) :
    List.Pairwise (fun p q : Str × α => strLt p.1 q.1 = true) (insertSorted k v l) := by
  induction l with
  | nil => simp [insertSorted]
  | cons hd tl ih =>
    obtain ⟨k', v'⟩ := hd
    obtain ⟨hh, ht⟩ := List.pairwise_cons.mp hs
    simp only [insertSorted]
    by_cases h1 : strLt k k' = true
    · rw [if_pos h1]
      refine List.pairwise_cons.mpr ⟨?_, hs⟩
      intro q hq
      rcases List.mem_cons.mp hq with rfl | hq
      · exact h1
      · exact strLt_trans h1 (hh q hq)
    · rw [if_neg h1]
      by_cases h2 : k = k'
      · rw [if_pos h2]
        refine List.pairwise_cons.mpr ⟨?_, ht⟩
        intro q hq
        have := hh q hq
        rw [← h2] at this
        exact this
      · rw [if_neg h2]
        refine List.pairwise_cons.mpr ⟨?_, ih ht⟩
        intro q hq
        have hk'k : strLt k' k = true := by
          rcases strLt_total h2 with h | h
          · exact absurd h h1
          · exact h
        rcases keys_insertSorted_sub (l := tl) v (List.mem_map_of_mem Prod.fst hq) with h | h
        · rw [h]; exact hk'k
        · obtain ⟨q', hq', hfst⟩ := List.mem_map.mp h
          have hlt := hh q' hq'
          rw [hfst] at hlt
          exact hlt

/-- In a key-sorted list, a smaller key occurs before a larger one. -/
theorem sorted_beforeIn {l : List Str}
    (hs : List.Pairwise (fun a b => strLt a b = true) l)
    {a b : Str} (ha : a ∈ l) (hb : b ∈ l) (hab : strLt a b = true) :
    beforeIn l a b := by
  induction l with
  | nil => cases ha
  | cons h t ih =>
    obtain ⟨hh, ht⟩ := List.pairwise_cons.mp hs
    by_cases hahd : a = h
    · subst hahd
      have hbne : b ≠ a := fun hba => strLt_ne hab hba.symm
      have hbt : b ∈ t := by
        rcases List.mem_cons.mp hb with rfl | hbt
        · exact absurd rfl hbne
        · exact hbt
      refine ⟨List.mem_cons_self _ _, hb, ?_⟩
      rw [show idxOf a (a :: t) = 0 by simp [idxOf],
        show idxOf b (a :: t) = idxOf b t + 1 by simp [idxOf, hbne]]
      exact Nat.succ_pos _
    · have hat : a ∈ t := by
        rcases List.mem_cons.mp ha with rfl | hat
        · exact absurd rfl hahd
        · exact hat
      by_cases hbhd : b = h
      · subst hbhd
        have := strLt_trans hab (hh a hat)
        rw [strLt_irrefl] at this
        cases this
      · have hbt : b ∈ t := by
          rcases List.mem_cons.mp hb with rfl | hbt
          · exact absurd rfl hbhd
          · exact hbt
        obtain ⟨_, _, hidx⟩ := ih ht hat hbt
        refine ⟨ha, hb, ?_⟩
        rw [show idxOf a (h :: t) = idxOf a t + 1 by simp [idxOf, hahd],
          show idxOf b (h :: t) = idxOf b t + 1 by simp [idxOf, hbhd]]
        exact Nat.succ_lt_succ hidx

/-- C3 (amended): after `create_help_and_version` injects the
`hclap_help` flag, every user flag whose name is lexicographically
smaller than `hclap_help` still renders before it (the flag store is
iterated in key order for help rendering).  The original claim's
universal form — that *every* user flag name sorts before `hclap_help` —
is false (see the counterexample with the flag `zebra`); the guarantee
holds exactly for the names that compare below `hclap_help`. -/
theorem c3_smaller_user_flags_render_before_injected
    {sch : Schema}
    (hs : List.Pairwise (fun p q : Str × FlagBuilder => strLt p.1 q.1 = true) sch.flags)
    (hlh : sch.needsLongHelp = true)
    {n : Str} (hn : n ∈ sch.flags.map Prod.fst)
    (hlt : strLt n (str "hclap_help") = true) :
    beforeIn ((createHelpAndVersion sch).flags.map Prod.fst) n (str "hclap_help") := by
  have hne1 : n ≠ str "hclap_help" := strLt_ne hlt
  have hne2 : n ≠ str "vclap_version" := by
    intro hv
    rw [hv] at hlt
    exact absurd hlt (by decide)
  have hne3 : (str "hclap_help") ≠ str "vclap_version" := by decide
  unfold createHelpAndVersion
  rw [hlh]
  simp only [if_true]
  set F1 := insertSorted (str "hclap_help") (helpFlag sch.needsShortHelp) sch.flags with hF1
  have hsF1 : List.Pairwise (fun p q : Str × FlagBuilder => strLt p.1 q.1 = true) F1 :=
    insertSorted_pairwise _ hs
  have hnF1 : n ∈ F1.map Prod.fst := mem_keys_insertSorted _ hn hne1
  have hhF1 : (str "hclap_help") ∈ F1.map Prod.fst := mem_keys_insertSorted_self _ _ _
  by_cases hlv : sch.needsLongVersion = true
  · rw [hlv]
    simp only [if_true]
    exact sorted_beforeIn (List.pairwise_map.mpr (insertSorted_pairwise _ hsF1))
      (mem_keys_insertSorted _ hnF1 hne2)
      (mem_keys_insertSorted _ hhF1 hne3) hlt
  · rw [Bool.not_eq_true] at hlv
    rw [hlv]
    simp only [Bool.false_eq_true, if_false]
    exact sorted_beforeIn (List.pairwise_map.mpr hsF1) hnF1 hhF1 hlt

/-- C3 witness: for a command with the single user flag `debug`
(which sorts below `hclap_help`), the user flag renders before the
injected help flag. -/
theorem c3_witness :
    (List.Pairwise (fun p q : Str × FlagBuilder => strLt p.1 q.1 = true)
        [(str "debug", flagB "debug" (some 'd') none none false)]
      ∧ strLt (str "debug") (str "hclap_help") = true)
    ∧ beforeIn ((createHelpAndVersion
        { flags := [(str "debug", flagB "debug" (some 'd') none none false)],
          opts := [], positionals := [], groups := [],
          needsLongHelp := true, needsLongVersion := true,
          needsShortHelp := true, needsShortVersion := true }).flags.map Prod.fst)
        (str "debug") (str "hclap_help") := by
  refine ⟨⟨by decide, by decide⟩, ?_⟩
  exact c3_smaller_user_flags_render_before_injected (by decide) rfl
    (by decide) (by decide)

/-! ## Loop step lemmas (claims C4, C5, C6, C10) -/

/-- One unfolding of the token loop. -/
theorem parseLoop_cons_eq (sch : Schema) (keys : List Str) (st : ParseState)
    (arg : Str) (rest : List Str) :
    parseLoop sch keys st (arg :: rest)
      = match stepToken sch keys st arg with
        | .error h => .error h
        | .ok (.cont st') => parseLoop sch keys st' rest
        | .ok (.sub name st') => .ok (.subc name st' rest) := rfl

/-- The end-of-options sentinel sets `pos_only` and consumes the token. -/
theorem stepToken_dashdash (sch : Schema) (subKeys : List Str) (st : ParseState)
    (h1 : st.posOnly = false) (h2 : st.needsValOf = none) :
    stepToken sch subKeys st (str "--") = .ok (.cont { st with posOnly := true }) := by
  unfold stepToken classifyToken
  rw [h1, h2]
  simp [startsDashDash, str]

/-- With `pos_only` set, a token naming a subcommand (other than `help`)
halts the loop with that subcommand, leaving the state untouched. -/
theorem stepToken_subcmd (sch : Schema) (subKeys : List Str) (st : ParseState) {s : Str}
    (h1 : st.posOnly = true) (hmem : s ∈ subKeys) (hhelp : s ≠ str "help") :
    stepToken sch subKeys st s = .ok (.sub s st) := by
  unfold stepToken classifyToken
  rw [h1]
  simp [hmem, hhelp]

/-- Lookup in the subcommand store ignores an insertion under a
different key. -/
theorem subLookup_insertSorted_ne {k s : Str} (v : App) (l : List (Str × App))
    (hne : s ≠ k) : subLookup (subInsertSorted k v l) s = subLookup l s := by
  have hks : (decide (k = s)) = false := decide_eq_false (fun h => hne h.symm)
  induction l with
  | nil => simp only [subInsertSorted, subLookup, List.find?, hks]
  | cons hd tl ih =>
    obtain ⟨k', v'⟩ := hd
    simp only [subInsertSorted]
    by_cases h1 : strLt k k' = true
    · rw [if_pos h1]
      simp only [subLookup, List.find?, hks]
    · rw [if_neg h1]
      by_cases h2 : k = k'
      · rw [if_pos h2]
        have hk2 : (decide (k' = s)) = false :=
          decide_eq_false (by intro h; exact hne (by rw [h2]; exact h.symm))
        simp only [subLookup, List.find?, hks, hk2]
      · rw [if_neg h2]
        simp only [subLookup, List.find?]
        cases hks' : decide (k' = s) with
        | true => rfl
        | false => exact ih

theorem mem_keys_of_subLookup {l : List (Str × App)} {s : Str} {sc : App}
    (h : subLookup l s = some sc) : s ∈ l.map Prod.fst := by
  unfold subLookup at h
  cases hf : l.find? (fun p => p.1 = s) with
  | none => rw [hf] at h; cases h
  | some p =>
    have hmem := List.mem_of_find?_eq_some hf
    have hp := List.find?_some hf
    simp only [decide_eq_true_eq] at hp
    exact hp ▸ List.mem_map_of_mem Prod.fst hmem

/-- C10: the `--` sentinel does not disable subcommand dispatch: a bare
token equal to a subcommand name `s` (other than the auto `help`)
appearing right after `--` still halts the loop and hands the residual
stream to `s`'s engine — it is not consumed as a positional value.  The
conclusion exhibits the recursion: the whole result is the subcommand
engine's result on the remaining tokens, wrapped as a nested match under
an empty top-level match map. -/
theorem c10_dashdash_keeps_subcommand_dispatch
    {fuel : Nat} {name : Str} {sch : Schema} {nsh : Bool} {mreq : List Str}
    {bin : Option Str} {subs : List (Str × App)} {s : Str} {sc : App}
    {rest : List Str}
    (hlook : subLookup
        (if nsh ∧ ¬ subs.isEmpty then subInsertSorted (str "help") helpApp subs
         else subs) s = some sc)
    (hhelp : s ≠ str "help") :
    getMatchesFrom (fuel + 1) (.mk name sch nsh [] mreq [] bin subs)
        (str "--" :: s :: rest)
      = (getMatchesFrom fuel (sc.setBinName (qualifyBin bin name)) rest).map
          (fun m => ArgMatches.mk [] (some (sc.name, m))) := by
  have hmem : s ∈ (if nsh ∧ ¬ subs.isEmpty then subInsertSorted (str "help") helpApp subs
      else subs).map Prod.fst := mem_keys_of_subLookup hlook
  have hloop : parseLoop (createHelpAndVersion sch)
      ((if nsh ∧ ¬ subs.isEmpty then subInsertSorted (str "help") helpApp subs
        else subs).map Prod.fst)
      { margs := [], required := [], matchedReqs := mreq, blacklist := [],
        posOnly := false, posCounter := 1, needsValOf := none }
      (str "--" :: s :: rest)
      = .ok (.subc s
          { margs := [], required := [], matchedReqs := mreq, blacklist := [],
            posOnly := true, posCounter := 1, needsValOf := none } rest) := by
    have h1 : parseLoop (createHelpAndVersion sch)
        ((if nsh ∧ ¬ subs.isEmpty then subInsertSorted (str "help") helpApp subs
          else subs).map Prod.fst)
        { margs := [], required := [], matchedReqs := mreq, blacklist := [],
          posOnly := false, posCounter := 1, needsValOf := none }
        (str "--" :: s :: rest)
        = parseLoop (createHelpAndVersion sch)
        ((if nsh ∧ ¬ subs.isEmpty then subInsertSorted (str "help") helpApp subs
          else subs).map Prod.fst)
        { margs := [], required := [], matchedReqs := mreq, blacklist := [],
          posOnly := true, posCounter := 1, needsValOf := none }
        (s :: rest) := by
      rw [parseLoop_cons_eq, stepToken_dashdash _ _ _ rfl rfl]
    rw [h1, parseLoop_cons_eq, stepToken_subcmd _ _ _ rfl hmem hhelp]
  simp only [getMatchesFrom, hloop]
  rw [hlook]
  simp only [validateBlacklist, List.findSome?, List.isEmpty_nil]
  cases hrec : getMatchesFrom fuel (sc.setBinName (qualifyBin bin name)) rest with
  | ok m => simp [Except.map]
  | error h => simp [Except.map]

/-- C10 witness: a concrete parent with subcommand `config`; the input
`-- config app.toml` dispatches into `config`, whose required positional
receives `app.toml`. -/
theorem c10_witness :
    subLookup (if true ∧ ¬ ([(str "config", configApp)] : List (Str × App)).isEmpty
        then subInsertSorted (str "help") helpApp [(str "config", configApp)]
        else [(str "config", configApp)]) (str "config") = some configApp
    ∧ getMatchesFrom 2 (.mk (str "prog")
        { flags := [], opts := [], positionals := [], groups := [],
          needsLongHelp := true, needsLongVersion := true,
          needsShortHelp := true, needsShortVersion := true }
        true [] [] [] none [(str "config", configApp)])
        (str "--" :: str "config" :: [str "app.toml"])
      = (getMatchesFrom 1 (configApp.setBinName (qualifyBin none (str "prog")))
          [str "app.toml"]).map
          (fun m => ArgMatches.mk [] (some (configApp.name, m))) := by
  refine ⟨rfl, ?_⟩
  exact c10_dashdash_keeps_subcommand_dispatch rfl (by decide)

/-! ## Long-token evaluation lemmas (claims C4, C6) -/

theorem trimDashes_double {l : Str} (h : longOk l = true) :
    trimDashes ('-' :: '-' :: l) = l := by
  cases l with
  | nil => cases h
  | cons c cs =>
    simp only [longOk, Bool.and_eq_true, decide_eq_true_eq] at h
    obtain ⟨hc, -⟩ := h
    simp [trimDashes, List.dropWhile, hc]

theorem longOk_no_eq {l : Str} (h : longOk l = true) : l.contains '=' = false := by
  cases l with
  | nil => rfl
  | cons c cs =>
    simp only [longOk, Bool.and_eq_true, Bool.not_eq_true'] at h
    exact h.2

theorem longOk_len {l : Str} (h : l ≠ []) : ('-' :: '-' :: l).length ≠ 2 := by
  cases l with
  | nil => exact absurd rfl h
  | cons c cs => simp

theorem longOk_ne_nil {l : Str} (h : longOk l = true) : l ≠ [] := by
  cases l with
  | nil => cases h
  | cons c cs => exact fun hx => List.noConfusion hx

theorem mapLookup_eq_none {m : List (Str × MatchedArg)} {k : Str}
    (h : mapContains m k = false) : mapLookup m k = none := by
  induction m with
  | nil => rfl
  | cons p t ih =>
    simp only [mapContains, List.any_cons, Bool.or_eq_false_iff] at h
    unfold mapLookup
    rw [List.find?_cons_of_neg _ (by simp only [h.1]; exact Bool.false_ne_true)]
    exact ih h.2

/-- A long token (`--l`) with pending state clear goes through
`parse_long_arg`. -/
theorem stepToken_long {sch : Schema} {keys : List Str} {st : ParseState} {l : Str}
    (hok : l ≠ []) (hpos : st.posOnly = false) (hnvo : st.needsValOf = none) :
    stepToken sch keys st ('-' :: '-' :: l)
      = (parseLongArg sch st ('-' :: '-' :: l)).map StepRes.cont := by
  unfold stepToken classifyToken
  rw [hpos, hnvo]
  have h3 := longOk_len hok
  simp only [startsDashDash, Bool.not_eq_true, if_neg h3, if_true, true_and,
    not_false_eq_true, and_true, if_pos]
  cases hp : parseLongArg sch st ('-' :: '-' :: l) with
  | ok st' => simp [Except.map]
  | error h => simp [Except.map]

/-- `parse_long_arg` on a long that resolves to a not-yet-matched,
non-blacklisted flag: the flag is recorded with one occurrence and the
constraint bookkeeping runs. -/
theorem parseLongArg_flag {sch : Schema} {st : ParseState} {l : Str} {v : FlagBuilder}
    (hok : longOk l = true)
    (hlh : sch.needsLongHelp = false) (hlv : sch.needsLongVersion = false)
    (hopt : findOptByLong sch.opts l = none)
    (hflag : findFlagByLong sch.flags l = some v)
    (hbl : v.name ∉ st.blacklist)
    (hmat : mapContains st.margs v.name = false) :
    parseLongArg sch st ('-' :: '-' :: l)
      = .ok { parseGroupReqs sch.groups
          (addRequires
            (addBlacklist
              { st with margs := mapInsert st.margs v.name ⟨1, none⟩,
                        required := removeSet st.required v.name }
              v.blacklist)
            v.requires)
          v.name with needsValOf := none } := by
  unfold parseLongArg
  rw [trimDashes_double hok]
  simp only [hlh, hlv, longOk_no_eq hok, Bool.false_eq_true, and_false, if_false,
    false_and, if_neg (fun h : False => h), hopt, hflag, if_neg hbl, hmat,
    false_and, mapLookup_eq_none hmat]

/-- `parse_long_arg` on a long resolving to a blacklisted flag: the
conflict error fires. -/
theorem parseLongArg_flag_conflict {sch : Schema} {st : ParseState} {l : Str}
    {v : FlagBuilder}
    (hok : longOk l = true)
    (hlh : sch.needsLongHelp = false) (hlv : sch.needsLongVersion = false)
    (hopt : findOptByLong sch.opts l = none)
    (hflag : findFlagByLong sch.flags l = some v)
    (hbl : v.name ∈ st.blacklist) :
    parseLongArg sch st ('-' :: '-' :: l) = .error (.perr (.conflict v.name)) := by
  unfold parseLongArg
  rw [trimDashes_double hok]
  simp only [hlh, hlv, longOk_no_eq hok, Bool.false_eq_true, and_false, if_false,
    false_and, if_neg (fun h : False => h), hopt, hflag, if_pos hbl]

/-! ## Bookkeeping characterizations -/

theorem parseGroupReqs_nil (st : ParseState) (n : Str) :
    parseGroupReqs [] st n = st := rfl

theorem addRequires_none (st : ParseState) : addRequires st none = st := rfl

theorem addBlacklist_none (st : ParseState) : addBlacklist st none = st := rfl

/-- `addBlacklist` is the pair of folds on the two touched fields. -/
theorem addBlacklist_some (st : ParseState) (l : List Str) :
    addBlacklist st (some l)
      = { st with blacklist := l.foldl insertSet st.blacklist,
                  required := l.foldl removeSet st.required } := by
  unfold addBlacklist
  induction l generalizing st with
  | nil => rfl
  | cons n tl ih => exact ih _

theorem foldl_removeSet_nil : ∀ l : List Str, l.foldl removeSet [] = []
  | [] => rfl
  | _ :: tl => foldl_removeSet_nil tl

/-- On a group-free schema, a blacklisted *and matched* name makes
`validate_blacklist` report a conflict (for some matched name). -/
theorem validateBlacklist_some {sch : Schema} {st : ParseState}
    (hg : sch.groups = []) {n : Str}
    (hn : n ∈ st.blacklist) (hm : mapContains st.margs n = true) :
    ∃ x, validateBlacklist sch st = some (.conflict x)
      ∧ mapContains st.margs x = true := by
  unfold validateBlacklist
  rw [hg]
  generalize st.blacklist = bl at hn
  induction bl with
  | nil => cases hn
  | cons h t ih =>
    rw [List.findSome?_cons]
    cases hmh : mapContains st.margs h with
    | true =>
      simp only [hmh]
      exact ⟨h, by simp, hmh⟩
    | false =>
      have hnt : n ∈ t := by
        rcases List.mem_cons.mp hn with rfl | hnt
        · rw [hmh] at hm; cases hm
        · exact hnt
      simp only [hmh, Bool.false_eq_true, alookup, List.find?, Option.map_none',
        if_false]
      exact ih hnt

/-- A long token resolving to a fresh, unblacklisted flag advances the
loop into the post-match bookkeeping state. -/
theorem parseLoop_long_flag {sch : Schema} {keys : List Str} {st : ParseState}
    {l : Str} {v : FlagBuilder} (rest : List Str)
    (hok : longOk l = true) (hpos : st.posOnly = false) (hnvo : st.needsValOf = none)
    (hlh : sch.needsLongHelp = false) (hlv : sch.needsLongVersion = false)
    (hopt : findOptByLong sch.opts l = none)
    (hflag : findFlagByLong sch.flags l = some v)
    (hbl : v.name ∉ st.blacklist)
    (hmat : mapContains st.margs v.name = false) :
    parseLoop sch keys st (('-' :: '-' :: l) :: rest)
      = parseLoop sch keys
          { parseGroupReqs sch.groups
              (addRequires (addBlacklist
                { st with margs := mapInsert st.margs v.name ⟨1, none⟩,
                          required := removeSet st.required v.name } v.blacklist)
                v.requires) v.name with needsValOf := none } rest := by
  rw [parseLoop_cons_eq, stepToken_long (longOk_ne_nil hok) hpos hnvo,
    parseLongArg_flag hok hlh hlv hopt hflag hbl hmat]
  rfl

/-- A long token resolving to a blacklisted flag aborts the loop with
the conflict error. -/
theorem parseLoop_long_flag_conflict {sch : Schema} {keys : List Str}
    {st : ParseState} {l : Str} {v : FlagBuilder} (rest : List Str)
    (hok : longOk l = true) (hpos : st.posOnly = false) (hnvo : st.needsValOf = none)
    (hlh : sch.needsLongHelp = false) (hlv : sch.needsLongVersion = false)
    (hopt : findOptByLong sch.opts l = none)
    (hflag : findFlagByLong sch.flags l = some v)
    (hbl : v.name ∈ st.blacklist) :
    parseLoop sch keys st (('-' :: '-' :: l) :: rest)
      = .error (.perr (.conflict v.name)) := by
  rw [parseLoop_cons_eq, stepToken_long (longOk_ne_nil hok) hpos hnvo,
    parseLongArg_flag_conflict hok hlh hlv hopt hflag hbl]
  rfl

/-- A key already present stays present across `mapInsert`. -/
theorem mapContains_mapInsert_mono {m : List (Str × MatchedArg)} {k j : Str}
    {v : MatchedArg} (h : mapContains m j = true) :
    mapContains (mapInsert m k v) j = true := by
  unfold mapInsert
  split
  · simp only [mapContains, List.any_map]
    simp only [mapContains, List.any_eq_true] at h ⊢
    obtain ⟨p, hp, hpk⟩ := h
    refine ⟨p, hp, ?_⟩
    simp only [Function.comp]
    split <;> exact hpk
  · simp only [mapContains, List.any_append, Bool.or_eq_true]
    exact Or.inl h

/-- C4: blacklist symmetry.  For the two-flag command in which `B`'s
name is in `A`'s blacklist, supplying both long flags fails with the
conflict error regardless of order: `A` first trips the running
blacklist when `B`'s token arrives; `B` first is caught by the
post-loop `validate_blacklist` pass. -/
theorem c4_conflict_regardless_of_order
    {na nb la lb : Str} {blA : List Str}
    (hla : longOk la = true) (hlb : longOk lb = true)
    (hll : la ≠ lb) (hnn : na ≠ nb)
    (hblA : nb ∈ blA) :
    getMatchesFrom 1 (conflictApp na nb la lb blA)
        ['-' :: '-' :: la, '-' :: '-' :: lb]
      = .error (.perr (.conflict nb))
    ∧ (∃ x, getMatchesFrom 1 (conflictApp na nb la lb blA)
        ['-' :: '-' :: lb, '-' :: '-' :: la]
      = .error (.perr (.conflict x))) := by
  have hA : findFlagByLong (conflictSchema na nb la lb blA).flags la
      = some { name := na, short := none, long := some la, help := none,
               multiple := false, blacklist := some blA, requires := none } := by
    unfold findFlagByLong conflictSchema
    rw [List.find?_cons_of_pos _ (by simp)]
    rfl
  have hB : findFlagByLong (conflictSchema na nb la lb blA).flags lb
      = some { name := nb, short := none, long := some lb, help := none,
               multiple := false, blacklist := none, requires := none } := by
    unfold findFlagByLong conflictSchema
    rw [List.find?_cons_of_neg _ (by simp [hll]),
      List.find?_cons_of_pos _ (by simp)]
    rfl
  have hopt : findOptByLong (conflictSchema na nb la lb blA).opts la = none := rfl
  have hopt' : findOptByLong (conflictSchema na nb la lb blA).opts lb = none := rfl
  constructor
  · -- A first, then B: caught in the loop
    have h1 := @parseLoop_long_flag (conflictSchema na nb la lb blA)
      ([] : List Str)
      { margs := [], required := [], matchedReqs := [], blacklist := [],
        posOnly := false, posCounter := 1, needsValOf := none }
      _ _
      ['-' :: '-' :: lb] hla rfl rfl rfl rfl hopt hA (by simp) rfl
    have h2 := @parseLoop_long_flag_conflict (conflictSchema na nb la lb blA)
      ([] : List Str)
      ({ addBlacklist
          { margs := [(na, ⟨1, none⟩)], required := [], matchedReqs := [],
            blacklist := [], posOnly := false, posCounter := 1,
            needsValOf := none } (some blA) with needsValOf := none })
      _ _
      ([] : List Str) hlb (by rw [addBlacklist_some]) rfl rfl rfl hopt' hB
      (by rw [addBlacklist_some]; exact mem_foldl_insertSet hblA)
    have hloop := h1.trans h2
    simp only [conflictApp, getMatchesFrom]
    rw [show createHelpAndVersion (conflictSchema na nb la lb blA)
        = conflictSchema na nb la lb blA from rfl]
    rw [show (if false ∧ ¬ ([] : List (Str × App)).isEmpty
        then subInsertSorted (str "help") helpApp [] else ([] : List (Str × App)))
        = [] by simp]
    simp only [List.map_nil]
    rw [hloop]
  · -- B first, then A: caught by the post-loop blacklist check
    have hcont : mapContains [(nb, (⟨1, none⟩ : MatchedArg))] na = false := by
      simp only [mapContains, List.any_cons, List.any_nil, Bool.or_false]
      exact decide_eq_false (fun h => hnn h.symm)
    have h1 := @parseLoop_long_flag (conflictSchema na nb la lb blA)
      ([] : List Str)
      { margs := [], required := [], matchedReqs := [], blacklist := [],
        posOnly := false, posCounter := 1, needsValOf := none }
      _ _
      ['-' :: '-' :: la] hlb rfl rfl rfl rfl hopt' hB (by simp) rfl
    have h2 := @parseLoop_long_flag (conflictSchema na nb la lb blA)
      ([] : List Str)
      { margs := [(nb, ⟨1, none⟩)], required := [], matchedReqs := [],
        blacklist := [], posOnly := false, posCounter := 1,
        needsValOf := none }
      _ _
      ([] : List Str) hla rfl rfl rfl rfl hopt hA (by simp) hcont
    have hloop := (h1.trans h2).trans
      (rfl : parseLoop (conflictSchema na nb la lb blA) []
        { addBlacklist
            { margs := mapInsert [(nb, ⟨1, none⟩)] na ⟨1, none⟩,
              required := [], matchedReqs := [], blacklist := [],
              posOnly := false, posCounter := 1, needsValOf := none }
            (some blA) with needsValOf := none } []
        = .ok (.fin { addBlacklist
            { margs := mapInsert [(nb, ⟨1, none⟩)] na ⟨1, none⟩,
              required := [], matchedReqs := [], blacklist := [],
              posOnly := false, posCounter := 1, needsValOf := none }
            (some blA) with needsValOf := none }))
    obtain ⟨x, hx, -⟩ := @validateBlacklist_some
      (conflictSchema na nb la lb blA)
      ({ addBlacklist
          { margs := mapInsert [(nb, ⟨1, none⟩)] na ⟨1, none⟩,
            required := [], matchedReqs := [], blacklist := [],
            posOnly := false, posCounter := 1, needsValOf := none }
          (some blA) with needsValOf := none })
      rfl nb
      (by rw [addBlacklist_some]; exact mem_foldl_insertSet hblA)
      (by rw [addBlacklist_some]
          exact mapContains_mapInsert_mono (by simp [mapContains]))
    refine ⟨x, ?_⟩
    simp only [conflictApp, getMatchesFrom]
    rw [show createHelpAndVersion (conflictSchema na nb la lb blA)
        = conflictSchema na nb la lb blA from rfl]
    rw [show (if false ∧ ¬ ([] : List (Str × App)).isEmpty
        then subInsertSorted (str "help") helpApp [] else ([] : List (Str × App)))
        = [] by simp]
    simp only [List.map_nil]
    rw [hloop]
    show (match validateBlacklist (conflictSchema na nb la lb blA)
        { addBlacklist
            { margs := mapInsert [(nb, ⟨1, none⟩)] na ⟨1, none⟩,
              required := [], matchedReqs := [], blacklist := [],
              posOnly := false, posCounter := 1, needsValOf := none }
            (some blA) with needsValOf := none } with
      | some e => Except.error (Halt.perr e)
      | none => _) = _
    rw [hx]

/-- C4 witness: conflicting flags `--aaa` (name `fa`, blacklist `fb`)
and `--bbb` (name `fb`): both orders fail with the conflict error. -/
theorem c4_witness :
    getMatchesFrom 1 (conflictApp (str "fa") (str "fb") (str "aaa") (str "bbb") [str "fb"])
        ['-' :: '-' :: str "aaa", '-' :: '-' :: str "bbb"]
      = .error (.perr (.conflict (str "fb")))
    ∧ (∃ x, getMatchesFrom 1 (conflictApp (str "fa") (str "fb") (str "aaa") (str "bbb") [str "fb"])
        ['-' :: '-' :: str "bbb", '-' :: '-' :: str "aaa"]
      = .error (.perr (.conflict x))) :=
  c4_conflict_regardless_of_order (by decide) (by decide) (by decide) (by decide)
    (by decide)

/-! ## Option-path evaluation lemmas (claim C6) -/

theorem trimDashes_double_append {l : Str} (r : Str) (h : longOk l = true) :
    trimDashes ('-' :: '-' :: (l ++ r)) = l ++ r := by
  cases l with
  | nil => cases h
  | cons c cs =>
    simp only [longOk, Bool.and_eq_true, decide_eq_true_eq] at h
    obtain ⟨hc, -⟩ := h
    simp [trimDashes, List.dropWhile, hc]

theorem contains_append_eq (l r : Str) : (l ++ '=' :: r).contains '=' = true := by
  induction l with
  | nil => simp [List.contains, List.elem]
  | cons c cs ih =>
    simp only [List.cons_append, List.contains, List.elem] at ih ⊢
    cases hc : '=' == c with
    | true => rfl
    | false => exact ih

theorem not_mem_of_contains_false {l : Str} {c : Char}
    (h : l.contains c = false) : c ∉ l := by
  intro hmem
  have h2 : l.contains c = true := List.elem_iff.mpr hmem
  rw [h] at h2
  cases h2

theorem splitChar_ne_nil (c : Char) (r : Str) : splitChar c r ≠ [] := by
  cases r with
  | nil => exact fun h => List.noConfusion h
  | cons x xs =>
    simp only [splitChar]
    cases splitChar c xs with
    | nil => exact fun h => List.noConfusion h
    | cons s rest =>
      by_cases hx : x = c
      · show (if x = c then [] :: s :: rest else (x :: s) :: rest) ≠ []
        rw [if_pos hx]; exact fun h => List.noConfusion h
      · show (if x = c then [] :: s :: rest else (x :: s) :: rest) ≠ []
        rw [if_neg hx]; exact fun h => List.noConfusion h

theorem splitChar_no_sep {r : Str} {c : Char} (h : c ∉ r) :
    splitChar c r = [r] := by
  induction r with
  | nil => rfl
  | cons x xs ih =>
    have hx : ¬ x = c := fun hx => h (hx ▸ List.mem_cons_self _ _)
    have hxs : c ∉ xs := fun hm => h (List.mem_cons_of_mem _ hm)
    simp only [splitChar, ih hxs, if_neg hx]

theorem splitChar_append {l r : Str} (h : '=' ∉ l) :
    splitChar '=' (l ++ '=' :: r) = l :: splitChar '=' r := by
  induction l with
  | nil =>
    simp only [List.nil_append, splitChar, if_pos rfl]
    cases hs : splitChar '=' r with
    | nil => exact absurd hs (splitChar_ne_nil _ _)
    | cons a b => rfl
  | cons x xs ih =>
    have hx : ¬ x = '=' := fun hx => h (hx ▸ List.mem_cons_self _ _)
    have hxs : '=' ∉ xs := fun hm => h (List.mem_cons_of_mem _ hm)
    have h2 : splitChar '=' (xs.append ('=' :: r)) = xs :: splitChar '=' r := ih hxs
    simp only [List.cons_append, splitChar, h2, if_neg hx]

/-- `parse_long_arg` on `--long=val` (first occurrence of the option):
the inline value is recorded with occurrence 1 — without any
possible-values check (the C1 slip) — and the bookkeeping runs. -/
theorem parseLongArg_opt_inline {sch : Schema} {st : ParseState} {l val : Str}
    {v : OptBuilder}
    (hok : longOk l = true) (hval : val ≠ []) (hveq : '=' ∉ val)
    (hlh : sch.needsLongHelp = false) (hlv : sch.needsLongVersion = false)
    (hfind : findOptByLong sch.opts l = some v)
    (hbl : v.name ∉ st.blacklist)
    (hmat : mapContains st.margs v.name = false) :
    parseLongArg sch st ('-' :: '-' :: (l ++ '=' :: val))
      = .ok (parseLongArg.longOptTail sch
          { st with margs := mapInsert st.margs v.name ⟨1, some [val]⟩ }
          v (some val)) := by
  unfold parseLongArg
  rw [trimDashes_double_append _ hok]
  simp only [hlh, hlv, Bool.false_eq_true, and_false, if_neg (fun h : False => h),
    contains_append_eq,
    splitChar_append (not_mem_of_contains_false (longOk_no_eq hok)),
    splitChar_no_sep hveq, List.headD_cons, List.drop_succ_cons, List.drop_zero,
    if_true, if_neg (fun h : True ∧ val = [] => hval h.2), hfind, if_neg hbl, hmat,
    false_and, if_neg (fun h : False ∧ ¬ v.multiple = true => h.1),
    if_neg (fun h : False => h)]
  rfl

/-- `parse_long_arg` on `--long` (no inline value, first occurrence):
the option is recorded with occurrence 0 and an empty value list, and
the option's name is returned as the pending `needs_val_of`. -/
theorem parseLongArg_opt_sep {sch : Schema} {st : ParseState} {l : Str}
    {v : OptBuilder}
    (hok : longOk l = true)
    (hlh : sch.needsLongHelp = false) (hlv : sch.needsLongVersion = false)
    (hfind : findOptByLong sch.opts l = some v)
    (hbl : v.name ∉ st.blacklist)
    (hmat : mapContains st.margs v.name = false) :
    parseLongArg sch st ('-' :: '-' :: l)
      = .ok (parseLongArg.longOptTail sch
          { st with margs := mapInsert st.margs v.name ⟨0, some []⟩ }
          v none) := by
  unfold parseLongArg
  rw [trimDashes_double hok]
  simp only [hlh, hlv, Bool.false_eq_true, and_false, if_neg (fun h : False => h),
    longOk_no_eq hok, false_and, hfind, if_neg hbl, hmat, if_true,
    if_neg (fun h : False ∧ ¬ v.multiple = true => h.1)]
  rfl

/-- `parse_long_arg` on `--long=` (empty inline value): the
requires-a-value error fires. -/
theorem parseLongArg_empty_eq {sch : Schema} {st : ParseState} {l : Str}
    (hok : longOk l = true)
    (hlh : sch.needsLongHelp = false) (hlv : sch.needsLongVersion = false) :
    parseLongArg sch st ('-' :: '-' :: (l ++ ['=']))
      = .error (.perr (.emptyValue l)) := by
  unfold parseLongArg
  rw [trimDashes_double_append _ hok]
  simp only [hlh, hlv, Bool.false_eq_true, and_false, if_neg (fun h : False => h),
    contains_append_eq,
    splitChar_append (not_mem_of_contains_false (longOk_no_eq hok)),
    List.headD_cons, List.drop_succ_cons, List.drop_zero, if_true]
  rw [if_pos ⟨trivial, rfl⟩]

/-- Consuming a pending option value whose possible-values check passes. -/
theorem stepToken_pending {sch : Schema} {keys : List Str} {st : ParseState}
    {arg n : Str} {v : OptBuilder}
    (hpos : st.posOnly = false) (hnvo : st.needsValOf = some n)
    (hlook : alookup sch.opts n = some v)
    (hpv : ∀ p, v.possible_vals = some p → p.isEmpty = true ∨ arg ∈ p) :
    stepToken sch keys st arg
      = .ok (.cont { consumePendingVal.pendingRecord v st arg
          with needsValOf := none }) := by
  unfold stepToken
  rw [hpos, hnvo]
  simp only [Bool.false_eq_true, if_neg (fun h : False => h), hlook]
  unfold consumePendingVal
  cases hc : v.possible_vals with
  | none => rfl
  | some p =>
    have hcond : ¬ (¬ p.isEmpty = true ∧ arg ∉ p) := by
      rcases hpv p hc with hemp | hmem
      · exact fun h => h.1 hemp
      · exact fun h => h.2 hmem
    show (match (if ¬ p.isEmpty = true ∧ arg ∉ p then
            Except.error (Halt.perr (ParseErr.invalidValue arg v.name))
          else Except.ok (consumePendingVal.pendingRecord v st arg)) with
        | Except.error h => Except.error h
        | Except.ok st' => Except.ok (StepRes.cont { st' with needsValOf := none }))
      = _
    rw [if_neg hcond]

/-- A long token resolving to a fresh option with no inline value:
the loop records occurrence 0 and waits for the value. -/
theorem parseLoop_long_opt_sep {sch : Schema} {keys : List Str} {st : ParseState}
    {l : Str} {v : OptBuilder} (rest : List Str)
    (hok : longOk l = true) (hpos : st.posOnly = false) (hnvo : st.needsValOf = none)
    (hlh : sch.needsLongHelp = false) (hlv : sch.needsLongVersion = false)
    (hfind : findOptByLong sch.opts l = some v)
    (hbl : v.name ∉ st.blacklist)
    (hmat : mapContains st.margs v.name = false) :
    parseLoop sch keys st (('-' :: '-' :: l) :: rest)
      = parseLoop sch keys
          (parseLongArg.longOptTail sch
            { st with margs := mapInsert st.margs v.name ⟨0, some []⟩ } v none)
          rest := by
  rw [parseLoop_cons_eq, stepToken_long (longOk_ne_nil hok) hpos hnvo,
    parseLongArg_opt_sep hok hlh hlv hfind hbl hmat]
  rfl

/-- A long token with inline value resolving to a fresh option: the
value is recorded immediately (unvalidated). -/
theorem parseLoop_long_opt_inline {sch : Schema} {keys : List Str}
    {st : ParseState} {l val : Str} {v : OptBuilder} (rest : List Str)
    (hok : longOk l = true) (hval : val ≠ []) (hveq : '=' ∉ val)
    (hpos : st.posOnly = false) (hnvo : st.needsValOf = none)
    (hlh : sch.needsLongHelp = false) (hlv : sch.needsLongVersion = false)
    (hfind : findOptByLong sch.opts l = some v)
    (hbl : v.name ∉ st.blacklist)
    (hmat : mapContains st.margs v.name = false) :
    parseLoop sch keys st (('-' :: '-' :: (l ++ '=' :: val)) :: rest)
      = parseLoop sch keys
          (parseLongArg.longOptTail sch
            { st with margs := mapInsert st.margs v.name ⟨1, some [val]⟩ }
            v (some val))
          rest := by
  rw [parseLoop_cons_eq, stepToken_long (by simp) hpos hnvo,
    parseLongArg_opt_inline hok hval hveq hlh hlv hfind hbl hmat]
  rfl

/-- A `--long=` token (empty inline value) aborts the loop. -/
theorem parseLoop_long_empty_eq {sch : Schema} {keys : List Str}
    {st : ParseState} {l : Str} (rest : List Str)
    (hok : longOk l = true)
    (hpos : st.posOnly = false) (hnvo : st.needsValOf = none)
    (hlh : sch.needsLongHelp = false) (hlv : sch.needsLongVersion = false) :
    parseLoop sch keys st (('-' :: '-' :: (l ++ ['='])) :: rest)
      = .error (.perr (.emptyValue l)) := by
  rw [parseLoop_cons_eq, stepToken_long (by simp) hpos hnvo,
    parseLongArg_empty_eq hok hlh hlv]
  rfl

/-- The pending-value step of the loop. -/
theorem parseLoop_pending {sch : Schema} {keys : List Str} {st : ParseState}
    {arg n : Str} {v : OptBuilder} (rest : List Str)
    (hpos : st.posOnly = false) (hnvo : st.needsValOf = some n)
    (hlook : alookup sch.opts n = some v)
    (hpv : ∀ p, v.possible_vals = some p → p.isEmpty = true ∨ arg ∈ p) :
    parseLoop sch keys st (arg :: rest)
      = parseLoop sch keys
          { consumePendingVal.pendingRecord v st arg with needsValOf := none }
          rest := by
  rw [parseLoop_cons_eq, stepToken_pending hpos hnvo hlook hpv]

/-- C6 (amended): `--opt val` and `--opt=val` produce identical match
results *provided the value passes the option's possible-values check*
(without that proviso the forms differ — see the counterexample: the
inline form skips validation at a first occurrence); and `--opt=` with
an empty value fails with the requires-a-value error. -/
theorem c6_opt_value_forms_equivalent
    {nm l val : Str} {sh : Option Char} {hp : Option Str} {mult : Bool}
    {pv : Option (List Str)} {rq : Bool}
    (hok : longOk l = true) (hval : val ≠ []) (hveq : '=' ∉ val)
    (hpv : ∀ p, pv = some p → p.isEmpty = true ∨ val ∈ p) :
    (getMatchesFrom 1 (optApp ⟨nm, sh, some l, hp, mult, none, pv, none, rq⟩)
        ['-' :: '-' :: l, val]
      = getMatchesFrom 1 (optApp ⟨nm, sh, some l, hp, mult, none, pv, none, rq⟩)
        ['-' :: '-' :: (l ++ '=' :: val)])
    ∧ getMatchesFrom 1 (optApp ⟨nm, sh, some l, hp, mult, none, pv, none, rq⟩)
        ['-' :: '-' :: (l ++ ['='])]
      = .error (.perr (.emptyValue l)) := by
  have hfind : findOptByLong
      (optSchema ⟨nm, sh, some l, hp, mult, none, pv, none, rq⟩).opts l
      = some ⟨nm, sh, some l, hp, mult, none, pv, none, rq⟩ := by
    unfold optSchema findOptByLong
    rw [List.find?_cons_of_pos _ (by simp)]
    rfl
  have hlook : alookup
      (optSchema ⟨nm, sh, some l, hp, mult, none, pv, none, rq⟩).opts nm
      = some ⟨nm, sh, some l, hp, mult, none, pv, none, rq⟩ := by
    unfold optSchema alookup
    rw [List.find?_cons_of_pos _ (by simp)]
    rfl
  have h1 := @parseLoop_long_opt_sep
    (optSchema ⟨nm, sh, some l, hp, mult, none, pv, none, rq⟩)
    ([] : List Str)
    { margs := [], required := [], matchedReqs := [], blacklist := [],
      posOnly := false, posCounter := 1, needsValOf := none }
    _ _
    [val] hok rfl rfl rfl rfl hfind (by simp) rfl
  have h2 := @parseLoop_pending
    (optSchema ⟨nm, sh, some l, hp, mult, none, pv, none, rq⟩)
    ([] : List Str)
    { margs := [(nm, ⟨0, some []⟩)], required := [], matchedReqs := [],
      blacklist := [], posOnly := false, posCounter := 1,
      needsValOf := some nm }
    val nm
    ⟨nm, sh, some l, hp, mult, none, pv, none, rq⟩
    ([] : List Str) rfl rfl hlook hpv
  have hstate : ({ consumePendingVal.pendingRecord
        ⟨nm, sh, some l, hp, mult, none, pv, none, rq⟩
        { margs := [(nm, ⟨0, some []⟩)], required := [], matchedReqs := [],
          blacklist := [], posOnly := false, posCounter := 1,
          needsValOf := some nm } val with needsValOf := none } : ParseState)
      = { margs := [(nm, ⟨1, some [val]⟩)], required := [], matchedReqs := [],
          blacklist := [], posOnly := false, posCounter := 1,
          needsValOf := none } := by
    unfold consumePendingVal.pendingRecord
    simp [mapUpdate]
  have hloopSep := (h1.trans h2).trans
    (show parseLoop (optSchema ⟨nm, sh, some l, hp, mult, none, pv, none, rq⟩) []
        { consumePendingVal.pendingRecord
            ⟨nm, sh, some l, hp, mult, none, pv, none, rq⟩
            { margs := [(nm, ⟨0, some []⟩)], required := [], matchedReqs := [],
              blacklist := [], posOnly := false, posCounter := 1,
              needsValOf := some nm } val with needsValOf := none } []
      = .ok (.fin { margs := [(nm, ⟨1, some [val]⟩)],
                    required := [],
                    matchedReqs := [], blacklist := [], posOnly := false,
                    posCounter := 1, needsValOf := none }) from by
      rw [hstate]
      rfl)
  have h1' := @parseLoop_long_opt_inline
    (optSchema ⟨nm, sh, some l, hp, mult, none, pv, none, rq⟩)
    ([] : List Str)
    { margs := [], required := [], matchedReqs := [], blacklist := [],
      posOnly := false, posCounter := 1, needsValOf := none }
    _ _ _
    ([] : List Str) hok hval hveq rfl rfl rfl rfl hfind (by simp) rfl
  have hloopInl := h1'.trans
    (rfl : parseLoop (optSchema ⟨nm, sh, some l, hp, mult, none, pv, none, rq⟩) []
        { margs := [(nm, ⟨1, some [val]⟩)], required := [], matchedReqs := [],
          blacklist := [], posOnly := false, posCounter := 1,
          needsValOf := none } []
      = .ok (.fin { margs := [(nm, ⟨1, some [val]⟩)],
                    required := [],
                    matchedReqs := [], blacklist := [], posOnly := false,
                    posCounter := 1, needsValOf := none }))
  constructor
  · simp only [optApp, getMatchesFrom]
    rw [show createHelpAndVersion
        (optSchema ⟨nm, sh, some l, hp, mult, none, pv, none, rq⟩)
        = optSchema ⟨nm, sh, some l, hp, mult, none, pv, none, rq⟩ from rfl]
    rw [show (if false ∧ ¬ ([] : List (Str × App)).isEmpty
        then subInsertSorted (str "help") helpApp [] else ([] : List (Str × App)))
        = [] by simp]
    simp only [List.map_nil]
    rw [hloopSep, hloopInl]
    rfl
  · have hloopE := @parseLoop_long_empty_eq
      (optSchema ⟨nm, sh, some l, hp, mult, none, pv, none, rq⟩)
      ([] : List Str)
      { margs := [], required := [], matchedReqs := [], blacklist := [],
        posOnly := false, posCounter := 1, needsValOf := none }
      _
      ([] : List Str) hok rfl rfl rfl rfl
    simp only [optApp, getMatchesFrom]
    rw [show createHelpAndVersion
        (optSchema ⟨nm, sh, some l, hp, mult, none, pv, none, rq⟩)
        = optSchema ⟨nm, sh, some l, hp, mult, none, pv, none, rq⟩ from rfl]
    rw [show (if false ∧ ¬ ([] : List (Str × App)).isEmpty
        then subInsertSorted (str "help") helpApp [] else ([] : List (Str × App)))
        = [] by simp]
    simp only [List.map_nil]
    rw [hloopE]

/-- C6 witness: the option `--out` with no value restriction: `--out
file.txt` and `--out=file.txt` give the same match result, and `--out=`
fails. -/
theorem c6_witness :
    (getMatchesFrom 1 (optApp ⟨str "out", none, some (str "out"), none, false,
          none, none, none, false⟩)
        ['-' :: '-' :: str "out", str "file.txt"]
      = getMatchesFrom 1 (optApp ⟨str "out", none, some (str "out"), none, false,
          none, none, none, false⟩)
        ['-' :: '-' :: (str "out" ++ '=' :: str "file.txt")])
    ∧ getMatchesFrom 1 (optApp ⟨str "out", none, some (str "out"), none, false,
          none, none, none, false⟩)
        ['-' :: '-' :: (str "out" ++ ['='])]
      = .error (.perr (.emptyValue (str "out"))) :=
  c6_opt_value_forms_equivalent (by decide) (by decide) (by decide)
    (fun p hp => by cases hp)

/-! ## Short-token evaluation lemmas (claim C5) -/

theorem startsDashDash_cons {c : Char} (cs : List Char) (h : c ≠ '-') :
    startsDashDash ('-' :: c :: cs) = false := by
  unfold startsDashDash
  split
  · rename_i heq
    injection heq with h1 h2
    injection h2 with h3 h4
    exact absurd h3 h
  · rfl

/-- A record with its own `needsValOf`, already `none`, re-set to `none`
is itself. -/
theorem ParseState_eta_nvo {st : ParseState} (h : st.needsValOf = none) :
    { st with needsValOf := none } = st := by
  cases st
  simp only at h
  simp [h]

/-- A fold whose step touches neither `needsValOf` nor `posOnly` keeps
both. -/
theorem foldl_keeps {α : Type} {f : ParseState → α → ParseState}
    (hf : ∀ s a, (f s a).needsValOf = s.needsValOf ∧ (f s a).posOnly = s.posOnly) :
    ∀ (l : List α) (st : ParseState),
      (l.foldl f st).needsValOf = st.needsValOf ∧
      (l.foldl f st).posOnly = st.posOnly := by
  intro l
  induction l with
  | nil => intro st; exact ⟨rfl, rfl⟩
  | cons a l ih =>
    intro st
    have h1 := hf st a
    have h2 := ih (f st a)
    exact ⟨h2.1.trans h1.1, h2.2.trans h1.2⟩

theorem addBlacklist_keeps (st : ParseState) (bl : Option (List Str)) :
    (addBlacklist st bl).needsValOf = st.needsValOf ∧
    (addBlacklist st bl).posOnly = st.posOnly := by
  cases bl with
  | none => exact ⟨rfl, rfl⟩
  | some l =>
    exact foldl_keeps
      (f := fun s n =>
        { s with blacklist := insertSet s.blacklist n,
                 required := removeSet s.required n })
      (fun s n => ⟨rfl, rfl⟩) l st

theorem addRequires_keeps (st : ParseState) (reqs : Option (List Str)) :
    (addRequires st reqs).needsValOf = st.needsValOf ∧
    (addRequires st reqs).posOnly = st.posOnly := by
  cases reqs with
  | none => exact ⟨rfl, rfl⟩
  | some l =>
    refine foldl_keeps
      (f := fun s n =>
        let s := { s with matchedReqs := insertSet s.matchedReqs n }
        if mapContains s.margs n then s
        else { s with required := insertSet s.required n })
      (fun s n => ?_) l st
    constructor <;> (dsimp only; split <;> rfl)

theorem parseGroupReqs_keeps (groups : List (Str × ArgGroup)) (st : ParseState)
    (n : Str) :
    (parseGroupReqs groups st n).needsValOf = st.needsValOf ∧
    (parseGroupReqs groups st n).posOnly = st.posOnly := by
  refine foldl_keeps (fun s g => ?_) groups st
  dsimp only
  split
  · have h1 := foldl_keeps
      (f := fun s m => if m = n then s else { s with blacklist := insertSet s.blacklist m })
      (fun s m => by constructor <;> (dsimp only; split <;> rfl))
      g.2.args s
    have h3 : ∀ s' : ParseState,
        ((match g.2.requires with
          | some rs => rs.foldl (fun s r => { s with required := insertSet s.required r }) s'
          | none => s') : ParseState).needsValOf = s'.needsValOf ∧
        ((match g.2.requires with
          | some rs => rs.foldl (fun s r => { s with required := insertSet s.required r }) s'
          | none => s') : ParseState).posOnly = s'.posOnly := by
      intro s'
      cases g.2.requires with
      | none => exact ⟨rfl, rfl⟩
      | some rs =>
        exact foldl_keeps
          (f := fun s r => { s with required := insertSet s.required r })
          (fun s r => ⟨rfl, rfl⟩) rs s'
    have h4 : ∀ s' : ParseState,
        ((match g.2.conflicts with
          | some cs => cs.foldl (fun s c => { s with blacklist := insertSet s.blacklist c }) s'
          | none => s') : ParseState).needsValOf = s'.needsValOf ∧
        ((match g.2.conflicts with
          | some cs => cs.foldl (fun s c => { s with blacklist := insertSet s.blacklist c }) s'
          | none => s') : ParseState).posOnly = s'.posOnly := by
      intro s'
      cases g.2.conflicts with
      | none => exact ⟨rfl, rfl⟩
      | some cs =>
        exact foldl_keeps
          (f := fun s c => { s with blacklist := insertSet s.blacklist c })
          (fun s c => ⟨rfl, rfl⟩) cs s'
    refine ⟨((h4 _).1.trans ((h3 _).1.trans h1.1)), ((h4 _).2.trans ((h3 _).2.trans h1.2))⟩
  · exact ⟨rfl, rfl⟩

/-- `parse_single_short_flag` mutates only the match/constraint stores:
`needs_val_of` and positional-only mode are untouched. -/
theorem parseSingleShortFlag_keeps {sch : Schema} {st : ParseState} {c : Char}
    {b : Bool} {st' : ParseState}
    (h : parseSingleShortFlag sch st c = .ok (b, st')) :
    st'.needsValOf = st.needsValOf ∧ st'.posOnly = st.posOnly := by
  unfold parseSingleShortFlag at h
  cases hf : findFlagByShort sch.flags c with
  | none =>
    simp only [hf] at h
    injection h with h2
    injection h2 with hb hs
    rw [← hs]
    exact ⟨rfl, rfl⟩
  | some v =>
    simp only [hf] at h
    by_cases hbl : v.name ∈ st.blacklist
    · rw [if_pos hbl] at h
      exact Except.noConfusion h
    · rw [if_neg hbl] at h
      by_cases hm : mapContains st.margs v.name = true ∧ ¬ v.multiple = true
      · rw [if_pos hm] at h
        exact Except.noConfusion h
      · rw [if_neg hm] at h
        have hs : parseGroupReqs sch.groups
            (addRequires
              (addBlacklist
                { st with
                    margs := (match mapLookup st.margs v.name with
                      | some _ => mapUpdate st.margs v.name (fun f =>
                          { f with occurrences :=
                              if v.multiple then f.occurrences + 1 else 1 })
                      | none => mapInsert st.margs v.name
                          { occurrences := 1, values := none }),
                    required := removeSet st.required v.name }
                v.blacklist)
              v.requires)
            v.name = st' := congrArg Prod.snd (Except.ok.inj h)
        rw [← hs]
        have k1 := addBlacklist_keeps
          { st with
              margs := (match mapLookup st.margs v.name with
                | some _ => mapUpdate st.margs v.name (fun f =>
                    { f with occurrences :=
                        if v.multiple then f.occurrences + 1 else 1 })
                | none => mapInsert st.margs v.name
                    { occurrences := 1, values := none }),
              required := removeSet st.required v.name }
          v.blacklist
        have k2 := addRequires_keeps
          (addBlacklist
            { st with
                margs := (match mapLookup st.margs v.name with
                  | some _ => mapUpdate st.margs v.name (fun f =>
                      { f with occurrences :=
                          if v.multiple then f.occurrences + 1 else 1 })
                  | none => mapInsert st.margs v.name
                      { occurrences := 1, values := none }),
                required := removeSet st.required v.name }
            v.blacklist)
          v.requires
        have k3 := parseGroupReqs_keeps sch.groups
          (addRequires
            (addBlacklist
              { st with
                  margs := (match mapLookup st.margs v.name with
                    | some _ => mapUpdate st.margs v.name (fun f =>
                        { f with occurrences :=
                            if v.multiple then f.occurrences + 1 else 1 })
                    | none => mapInsert st.margs v.name
                        { occurrences := 1, values := none }),
                  required := removeSet st.required v.name }
              v.blacklist)
            v.requires)
          v.name
        exact ⟨k3.1.trans (k2.1.trans k1.1), k3.2.trans (k2.2.trans k1.2)⟩

/-- When the character names a declared flag, `parse_single_short_flag`
never reports "not a flag". -/
theorem parseSingleShortFlag_found {sch : Schema} {st : ParseState} {c : Char}
    {b : Bool} {st' : ParseState}
    (hfs : (findFlagByShort sch.flags c).isSome = true)
    (h : parseSingleShortFlag sch st c = .ok (b, st')) : b = true := by
  unfold parseSingleShortFlag at h
  cases hf : findFlagByShort sch.flags c with
  | none => rw [hf] at hfs; exact Bool.noConfusion hfs
  | some v =>
    simp only [hf] at h
    by_cases hbl : v.name ∈ st.blacklist
    · rw [if_pos hbl] at h
      exact Except.noConfusion h
    · rw [if_neg hbl] at h
      by_cases hm : mapContains st.margs v.name = true ∧ ¬ v.multiple = true
      · rw [if_pos hm] at h
        exact Except.noConfusion h
      · rw [if_neg hm] at h
        exact (congrArg Prod.fst (Except.ok.inj h) : true = b).symm

/-- When the character names no declared flag, `parse_single_short_flag`
reports `false` and leaves the state alone. -/
theorem parseSingleShortFlag_none {sch : Schema} {st : ParseState} {c : Char}
    (h : findFlagByShort sch.flags c = none) :
    parseSingleShortFlag sch st c = .ok (false, st) := by
  unfold parseSingleShortFlag
  rw [h]

/-- A length-one short token whose character resolves to a flag. -/
theorem parseShortArg_single_flag {sch : Schema} {st : ParseState} {c : Char}
    {st' : ParseState} (hcd : c ≠ '-')
    (hchv : checkHelpAndVersion sch c = none)
    (hf : parseSingleShortFlag sch st c = .ok (true, st')) :
    parseShortArg sch st ['-', c] = .ok { st' with needsValOf := none } := by
  unfold parseShortArg
  rw [show trimDashes ['-', c] = [c] from by
    simp [trimDashes, List.dropWhile, hcd]]
  rw [if_neg (by simp)]
  dsimp only [List.head?]
  rw [hchv, hf]

/-- A length-one short token on which `parse_single_short_flag` aborts. -/
theorem parseShortArg_single_err {sch : Schema} {st : ParseState} {c : Char}
    {e : Halt} (hcd : c ≠ '-')
    (hchv : checkHelpAndVersion sch c = none)
    (hf : parseSingleShortFlag sch st c = .error e) :
    parseShortArg sch st ['-', c] = .error e := by
  unfold parseShortArg
  rw [show trimDashes ['-', c] = [c] from by
    simp [trimDashes, List.dropWhile, hcd]]
  rw [if_neg (by simp)]
  dsimp only [List.head?]
  rw [hchv, hf]

/-- With no pending value and positional mode off, the loop step is
token classification. -/
theorem stepToken_eq_classify {sch : Schema} {keys : List Str} {st : ParseState}
    {arg : Str} (hpos : st.posOnly = false) (hnvo : st.needsValOf = none) :
    stepToken sch keys st arg = classifyToken sch keys st arg := by
  unfold stepToken
  rw [hpos, hnvo]
  rfl

/-- The loop step on a length-one short token routes to
`parse_short_arg`. -/
theorem stepToken_short {sch : Schema} {keys : List Str} {st : ParseState}
    {c : Char} (hcd : c ≠ '-')
    (hpos : st.posOnly = false) (hnvo : st.needsValOf = none) :
    stepToken sch keys st ['-', c]
      = (parseShortArg sch st ['-', c]).map StepRes.cont := by
  rw [stepToken_eq_classify hpos hnvo]
  unfold classifyToken
  rw [if_neg (by simp [startsDashDash_cons [] hcd])]
  rw [if_pos (show startsDash ['-', c] = true ∧ ¬ ['-', c].length = 1
      ∧ ¬ st.posOnly = true from ⟨rfl, by simp, by simp [hpos]⟩)]
  cases parseShortArg sch st ['-', c] <;> rfl

/-- A short token of length over two enters the cluster loop. -/
theorem parseShortArg_cluster {sch : Schema} {st : ParseState} {c0 : Char}
    {cs1 : List Char} (hcd : c0 ≠ '-') (hlen : cs1 ≠ []) :
    parseShortArg sch st ('-' :: c0 :: cs1)
      = match clusterLoop sch (c0 :: cs1) (c0 :: cs1) st with
        | .error h => .error h
        | .ok st' => .ok { st' with needsValOf := none } := by
  unfold parseShortArg
  rw [show trimDashes ('-' :: c0 :: cs1) = c0 :: cs1 from by
    simp [trimDashes, List.dropWhile, hcd]]
  rw [if_pos (by
    cases cs1 with
    | nil => exact absurd rfl hlen
    | cons _ _ => simp only [List.length_cons]; omega)]

theorem stepToken_cluster {sch : Schema} {keys : List Str} {st : ParseState}
    {c0 : Char} {cs1 : List Char} (hcd : c0 ≠ '-') (hlen : cs1 ≠ [])
    (hpos : st.posOnly = false) (hnvo : st.needsValOf = none) :
    stepToken sch keys st ('-' :: c0 :: cs1)
      = match clusterLoop sch (c0 :: cs1) (c0 :: cs1) st with
        | .error h => .error h
        | .ok st' => .ok (.cont { st' with needsValOf := none }) := by
  rw [stepToken_eq_classify hpos hnvo]
  unfold classifyToken
  rw [if_neg (by simp [startsDashDash_cons cs1 hcd])]
  rw [if_pos (show startsDash ('-' :: c0 :: cs1) = true
      ∧ ¬ ('-' :: c0 :: cs1).length = 1 ∧ ¬ st.posOnly = true
      from ⟨rfl, by simp, by simp [hpos]⟩)]
  rw [parseShortArg_cluster hcd hlen]
  cases clusterLoop sch (c0 :: cs1) (c0 :: cs1) st <;> rfl

/-- The cluster loop run on a concatenation. -/
theorem clusterLoop_append {sch : Schema} {orig : Str} :
    ∀ (l1 l2 : List Char) (st : ParseState),
      clusterLoop sch orig (l1 ++ l2) st
        = match clusterLoop sch orig l1 st with
          | .error h => .error h
          | .ok st' => clusterLoop sch orig l2 st' := by
  intro l1
  induction l1 with
  | nil => intro l2 st; rfl
  | cons c cs ih =>
    intro l2 st
    simp only [List.cons_append, clusterLoop]
    cases hch : checkHelpAndVersion sch c with
    | some hh => rfl
    | none =>
      cases hps : parseSingleShortFlag sch st c with
      | error e => rfl
      | ok p =>
        obtain ⟨b, stm⟩ := p
        cases b with
        | true => exact ih l2 stm
        | false => rfl

/-- The cluster loop preserves `needsValOf` and `posOnly`. -/
theorem clusterLoop_keeps {sch : Schema} {orig : Str} :
    ∀ {cs : List Char} {st st' : ParseState},
      clusterLoop sch orig cs st = .ok st' →
      st'.needsValOf = st.needsValOf ∧ st'.posOnly = st.posOnly := by
  intro cs
  induction cs with
  | nil =>
    intro st st' h
    injection h with h2
    rw [← h2]
    exact ⟨rfl, rfl⟩
  | cons c cs ih =>
    intro st st' h
    simp only [clusterLoop] at h
    cases hch : checkHelpAndVersion sch c with
    | some hh => rw [hch] at h; exact Except.noConfusion h
    | none =>
      rw [hch] at h
      cases hps : parseSingleShortFlag sch st c with
      | error e => rw [hps] at h; exact Except.noConfusion h
      | ok p =>
        obtain ⟨b, stm⟩ := p
        rw [hps] at h
        cases b with
        | true =>
          have h1 := parseSingleShortFlag_keeps hps
          have h2 := ih h
          exact ⟨h2.1.trans h1.1, h2.2.trans h1.2⟩
        | false => exact Except.noConfusion h

/-- Core of claim C5's first half: stepping the loop over the expanded
tokens `-a -b -c ...` tracks the cluster loop state for state. -/
theorem parseLoop_cluster_spec {sch : Schema} {keys : List Str} (rest : List Str) :
    ∀ (chars : List Char) (st : ParseState) (orig : Str),
      st.posOnly = false → st.needsValOf = none →
      (∀ c ∈ chars, c ≠ '-' ∧ checkHelpAndVersion sch c = none ∧
        (findFlagByShort sch.flags c).isSome = true) →
      parseLoop sch keys st (chars.map (fun c => ['-', c]) ++ rest)
        = match clusterLoop sch orig chars st with
          | .error h => Except.error h
          | .ok st' => parseLoop sch keys st' rest := by
  intro chars
  induction chars with
  | nil =>
    intro st orig hpos hnvo hall
    simp only [List.map_nil, List.nil_append, clusterLoop]
  | cons c cs ih =>
    intro st orig hpos hnvo hall
    obtain ⟨hcd, hchv, hfs⟩ := hall c (List.mem_cons_self c cs)
    have hall' : ∀ c' ∈ cs, c' ≠ '-' ∧ checkHelpAndVersion sch c' = none ∧
        (findFlagByShort sch.flags c').isSome = true :=
      fun c' hc' => hall c' (List.mem_cons_of_mem c hc')
    simp only [List.map_cons, List.cons_append]
    rw [parseLoop_cons_eq, stepToken_short hcd hpos hnvo]
    simp only [clusterLoop]
    rw [hchv]
    cases hps : parseSingleShortFlag sch st c with
    | error e =>
      rw [parseShortArg_single_err hcd hchv hps]
      rfl
    | ok p =>
      obtain ⟨b, st'⟩ := p
      have hb := parseSingleShortFlag_found hfs hps
      subst hb
      have hkeep := parseSingleShortFlag_keeps hps
      have hpos' : st'.posOnly = false := hkeep.2.trans hpos
      have hnvo' : st'.needsValOf = none := hkeep.1.trans hnvo
      rw [parseShortArg_single_flag hcd hchv hps]
      rw [ParseState_eta_nvo hnvo']
      exact ih st' orig hpos' hnvo' hall'

/-- C5: clustered shorts.  In any schema, from any loop state outside
positional-only mode with no pending option value: a cluster token whose
characters all name declared flags parses exactly as the separate
one-character short tokens; and a clustered character that names no flag
(it may name an option, or nothing at all) makes the whole cluster token
fail with the invalid-argument error naming the cluster, once the
characters before it have been consumed as flags. -/
theorem c5_cluster_flags_equiv_nonflag_fails {sch : Schema} {keys : List Str}
    {st : ParseState} {rest : List Str}
    (hpos : st.posOnly = false) (hnvo : st.needsValOf = none) :
    (∀ chars : List Char, 2 ≤ chars.length →
      (∀ c ∈ chars, c ≠ '-' ∧ checkHelpAndVersion sch c = none ∧
        (findFlagByShort sch.flags c).isSome = true) →
      parseLoop sch keys st (('-' :: chars) :: rest)
        = parseLoop sch keys st (chars.map (fun c => ['-', c]) ++ rest))
    ∧ (∀ (pre : List Char) (b : Char) (post : List Char) (stm : ParseState),
      2 ≤ (pre ++ b :: post).length →
      (∀ c ∈ pre, c ≠ '-') → b ≠ '-' →
      clusterLoop sch (pre ++ b :: post) pre st = .ok stm →
      checkHelpAndVersion sch b = none →
      findFlagByShort sch.flags b = none →
      parseLoop sch keys st (('-' :: (pre ++ b :: post)) :: rest)
        = .error (.perr (.invalidShort (pre ++ b :: post)))) := by
  constructor
  · intro chars hlen hall
    obtain ⟨c0, cs1, rfl⟩ : ∃ c0 cs1, chars = c0 :: cs1 := by
      cases chars with
      | nil => simp at hlen
      | cons a b => exact ⟨a, b, rfl⟩
    have hlen1 : cs1 ≠ [] := by
      cases cs1 with
      | nil => simp at hlen
      | cons _ _ => simp
    obtain ⟨hcd, -, -⟩ := hall c0 (List.mem_cons_self c0 cs1)
    rw [parseLoop_cons_eq, stepToken_cluster hcd hlen1 hpos hnvo]
    rw [parseLoop_cluster_spec rest (c0 :: cs1) st (c0 :: cs1) hpos hnvo hall]
    cases hcl : clusterLoop sch (c0 :: cs1) (c0 :: cs1) st with
    | error h => rfl
    | ok st' =>
      have hnvo' : st'.needsValOf = none := (clusterLoop_keeps hcl).1.trans hnvo
      show parseLoop sch keys { st' with needsValOf := none } rest
        = parseLoop sch keys st' rest
      rw [ParseState_eta_nvo hnvo']
  · intro pre b post stm hlen hpre hb hcl hchvb hfb
    have hcl2 : clusterLoop sch (pre ++ b :: post) (pre ++ b :: post) st
        = .error (.perr (.invalidShort (pre ++ b :: post))) := by
      rw [clusterLoop_append pre (b :: post) st, hcl]
      simp only [clusterLoop]
      rw [hchvb, parseSingleShortFlag_none hfb]
    cases pre with
    | nil =>
      have hpost : post ≠ [] := by
        cases post with
        | nil => simp at hlen
        | cons _ _ => simp
      rw [show ([] : List Char) ++ b :: post = b :: post from rfl] at hcl2 ⊢
      rw [parseLoop_cons_eq, stepToken_cluster hb hpost hpos hnvo, hcl2]
    | cons p0 pre' =>
      have hp0 : p0 ≠ '-' := hpre p0 (List.mem_cons_self p0 pre')
      have htail : pre' ++ b :: post ≠ [] := by
        cases pre' with
        | nil => simp
        | cons _ _ => simp
      simp only [List.cons_append] at hcl2 ⊢
      rw [parseLoop_cons_eq, stepToken_cluster hp0 htail hpos hnvo, hcl2]

/-- C5 witness: in `shortSchema` (flags `-a -b -c`, option `-o`), the
cluster `-abc` parses as `-a -b -c`, and `-aoc` (the middle character
names the option) fails with the invalid-argument error. -/
theorem c5_witness :
    (parseLoop shortSchema []
        { margs := [], required := [], matchedReqs := [], blacklist := [],
          posOnly := false, posCounter := 1, needsValOf := none }
        (('-' :: ['a', 'b', 'c']) :: [])
      = parseLoop shortSchema []
        { margs := [], required := [], matchedReqs := [], blacklist := [],
          posOnly := false, posCounter := 1, needsValOf := none }
        ((['a', 'b', 'c'].map (fun c => ['-', c])) ++ []))
    ∧ parseLoop shortSchema []
        { margs := [], required := [], matchedReqs := [], blacklist := [],
          posOnly := false, posCounter := 1, needsValOf := none }
        (('-' :: (['a'] ++ 'o' :: ['c'])) :: [])
      = .error (.perr (.invalidShort (['a'] ++ 'o' :: ['c']))) := by
  have h := @c5_cluster_flags_equiv_nonflag_fails shortSchema
    ([] : List Str)
    { margs := [], required := [], matchedReqs := [], blacklist := [],
      posOnly := false, posCounter := 1, needsValOf := none }
    ([] : List Str) rfl rfl
  refine ⟨h.1 ['a', 'b', 'c'] (by decide) (by decide), ?_⟩
  exact h.2 ['a'] 'o' ['c']
    { margs := [(str "fa", ⟨1, none⟩)], required := [], matchedReqs := [],
      blacklist := [], posOnly := false, posCounter := 1, needsValOf := none }
    (by decide) (by decide) (by decide) rfl rfl rfl

/-! ## Occurrence-count invariant (claim C9) -/

theorem alookup_some_mem {α : Type} {m : List (Str × α)} {k : Str} {v : α}
    (h : alookup m k = some v) : (k, v) ∈ m := by
  unfold alookup at h
  cases hf : m.find? (fun p => p.1 = k) with
  | none => rw [hf] at h; cases h
  | some p =>
    obtain ⟨p1, p2⟩ := p
    rw [hf] at h
    simp only [Option.map_some'] at h
    injection h with hv
    have hmem := List.mem_of_find?_eq_some hf
    have hp := List.find?_some hf
    simp only [decide_eq_true_eq] at hp
    rw [← hp, ← hv]
    exact hmem

theorem alookup_isSome_of_mem {α : Type} {m : List (Str × α)} {k : Str} {v : α}
    (h : (k, v) ∈ m) : ∃ w, alookup m k = some w := by
  unfold alookup
  cases hf : m.find? (fun p => p.1 = k) with
  | some p => exact ⟨p.2, rfl⟩
  | none =>
    have h2 := List.find?_eq_none.mp hf (k, v) h
    simp at h2

theorem optsWF_mem_name {opts : List (Str × OptBuilder)} {p : Str × OptBuilder}
    (hwf : optsWF opts = true) (h : p ∈ opts) : p.1 = p.2.name := by
  unfold optsWF at hwf
  rw [List.all_eq_true] at hwf
  have h2 := hwf p h
  simpa using h2

theorem optsWF_alookup {opts : List (Str × OptBuilder)} {n : Str} {v : OptBuilder}
    (hwf : optsWF opts = true) (h : alookup opts n = some v) : v.name = n := by
  have hmem := alookup_some_mem h
  exact (optsWF_mem_name hwf hmem).symm

/-- Any option located by a `values().filter(..)` search resolves again
in the store under its own name (well-formed keys). -/
theorem findOpt_pending {opts : List (Str × OptBuilder)}
    {q : Str × OptBuilder → Bool} {v : OptBuilder} (hwf : optsWF opts = true)
    (h : (opts.find? q).map Prod.snd = some v) :
    ∃ w, alookup opts v.name = some w ∧ w.name = v.name := by
  cases hf : opts.find? q with
  | none => rw [hf] at h; cases h
  | some p =>
    rw [hf] at h
    simp only [Option.map_some'] at h
    injection h with hv
    have hmem := List.mem_of_find?_eq_some hf
    have hk := optsWF_mem_name hwf hmem
    have hpe : p = (v.name, v) := by
      obtain ⟨p1, p2⟩ := p
      simp only at hk hv
      rw [hv] at hk
      rw [hk, hv]
    rw [hpe] at hmem
    obtain ⟨w, hw⟩ := alookup_isSome_of_mem hmem
    exact ⟨w, hw, optsWF_alookup hwf hw⟩

theorem foldl_keeps_margs {α : Type} {f : ParseState → α → ParseState}
    (hf : ∀ s a, (f s a).margs = s.margs) :
    ∀ (l : List α) (st : ParseState), (l.foldl f st).margs = st.margs := by
  intro l
  induction l with
  | nil => intro st; rfl
  | cons a l ih => intro st; exact (ih (f st a)).trans (hf st a)

theorem addBlacklist_margs (st : ParseState) (bl : Option (List Str)) :
    (addBlacklist st bl).margs = st.margs := by
  cases bl with
  | none => rfl
  | some l =>
    exact foldl_keeps_margs
      (f := fun s n =>
        { s with blacklist := insertSet s.blacklist n,
                 required := removeSet s.required n })
      (fun s n => rfl) l st

theorem addRequires_margs (st : ParseState) (reqs : Option (List Str)) :
    (addRequires st reqs).margs = st.margs := by
  cases reqs with
  | none => rfl
  | some l =>
    refine foldl_keeps_margs
      (f := fun s n =>
        let s := { s with matchedReqs := insertSet s.matchedReqs n }
        if mapContains s.margs n then s
        else { s with required := insertSet s.required n })
      (fun s n => ?_) l st
    dsimp only
    split <;> rfl

theorem parseGroupReqs_margs (groups : List (Str × ArgGroup)) (st : ParseState)
    (n : Str) : (parseGroupReqs groups st n).margs = st.margs := by
  refine foldl_keeps_margs (fun s g => ?_) groups st
  dsimp only
  split
  · have h1 := foldl_keeps_margs
      (f := fun s m => if m = n then s else { s with blacklist := insertSet s.blacklist m })
      (fun s m => by dsimp only; split <;> rfl)
      g.2.args s
    have h3 : ∀ s' : ParseState,
        ((match g.2.requires with
          | some rs => rs.foldl (fun s r => { s with required := insertSet s.required r }) s'
          | none => s') : ParseState).margs = s'.margs := by
      intro s'
      cases g.2.requires with
      | none => rfl
      | some rs =>
        exact foldl_keeps_margs
          (f := fun s r => { s with required := insertSet s.required r })
          (fun s r => rfl) rs s'
    have h4 : ∀ s' : ParseState,
        ((match g.2.conflicts with
          | some cs => cs.foldl (fun s c => { s with blacklist := insertSet s.blacklist c }) s'
          | none => s') : ParseState).margs = s'.margs := by
      intro s'
      cases g.2.conflicts with
      | none => rfl
      | some cs =>
        exact foldl_keeps_margs
          (f := fun s c => { s with blacklist := insertSet s.blacklist c })
          (fun s c => rfl) cs s'
    exact (h4 _).trans ((h3 _).trans h1)
  · rfl

theorem occAll_mapUpdate {m : List (Str × MatchedArg)} {k : Str}
    {f : MatchedArg → MatchedArg}
    (hm : ∀ p ∈ m, 1 ≤ p.2.occurrences ∨ p.1 = k)
    (hf : ∀ a, 1 ≤ (f a).occurrences) :
    ∀ p ∈ mapUpdate m k f, 1 ≤ p.2.occurrences := by
  intro p hp
  unfold mapUpdate at hp
  obtain ⟨q, hq, rfl⟩ := List.mem_map.mp hp
  by_cases hqk : q.1 = k
  · rw [if_pos hqk]
    exact hf q.2
  · rw [if_neg hqk]
    rcases hm q hq with h1 | h1
    · exact h1
    · exact absurd h1 hqk

theorem occAll_mapInsert {m : List (Str × MatchedArg)} {k : Str} {v : MatchedArg}
    (hm : ∀ p ∈ m, 1 ≤ p.2.occurrences) (hv : 1 ≤ v.occurrences) :
    ∀ p ∈ mapInsert m k v, 1 ≤ p.2.occurrences := by
  intro p hp
  unfold mapInsert at hp
  by_cases hc : mapContains m k = true
  · rw [if_pos hc] at hp
    obtain ⟨q, hq, rfl⟩ := List.mem_map.mp hp
    by_cases hqk : q.1 = k
    · rw [if_pos hqk]; exact hv
    · rw [if_neg hqk]; exact hm q hq
  · rw [if_neg hc] at hp
    rcases List.mem_append.mp hp with h1 | h1
    · exact hm p h1
    · rcases List.mem_singleton.mp h1 with rfl
      exact hv

/-- Inserting an entry under key `k` keeps every entry's occurrence
count positive except possibly at `k` itself. -/
theorem margsOcc_mapInsert_self {m : List (Str × MatchedArg)} {k : Str}
    {v : MatchedArg} (hm : ∀ p ∈ m, 1 ≤ p.2.occurrences) :
    ∀ p ∈ mapInsert m k v, 1 ≤ p.2.occurrences ∨ p.1 = k := by
  intro p hp
  unfold mapInsert at hp
  by_cases hc : mapContains m k = true
  · rw [if_pos hc] at hp
    obtain ⟨q, hq, rfl⟩ := List.mem_map.mp hp
    by_cases hqk : q.1 = k
    · rw [if_pos hqk]
      exact Or.inr hqk
    · rw [if_neg hqk]
      exact Or.inl (hm q hq)
  · rw [if_neg hc] at hp
    rcases List.mem_append.mp hp with h1 | h1
    · exact Or.inl (hm p h1)
    · rcases List.mem_singleton.mp h1 with rfl
      exact Or.inr rfl

/-- The shared option bookkeeping of `parse_long_arg` leaves the match
store and mode untouched and sets the pending value per the inline
value's presence. -/
theorem longOptTail_inv {sch : Schema} {S : ParseState} {v : OptBuilder}
    {av : Option Str} :
    (parseLongArg.longOptTail sch S v av).margs = S.margs
    ∧ (parseLongArg.longOptTail sch S v av).posOnly = S.posOnly
    ∧ (parseLongArg.longOptTail sch S v av).needsValOf
        = (match av with | none => some v.name | some _ => none) := by
  unfold parseLongArg.longOptTail
  refine ⟨?_, ?_, rfl⟩
  · exact (parseGroupReqs_margs sch.groups _ v.name).trans
      ((addRequires_margs _ v.requires).trans (addBlacklist_margs S v.blacklist))
  · exact (parseGroupReqs_keeps sch.groups _ v.name).2.trans
      ((addRequires_keeps _ v.requires).2.trans (addBlacklist_keeps S v.blacklist).2)

/-- `parse_single_short_flag` keeps every occurrence count positive. -/
theorem parseSingleShortFlag_occ {sch : Schema} {st : ParseState} {c : Char}
    {b : Bool} {st' : ParseState}
    (h : parseSingleShortFlag sch st c = .ok (b, st'))
    (hm : ∀ p ∈ st.margs, 1 ≤ p.2.occurrences) :
    ∀ p ∈ st'.margs, 1 ≤ p.2.occurrences := by
  unfold parseSingleShortFlag at h
  cases hf : findFlagByShort sch.flags c with
  | none =>
    simp only [hf] at h
    injection h with h2
    injection h2 with hb hs
    rw [← hs]
    exact hm
  | some v =>
    simp only [hf] at h
    by_cases hbl : v.name ∈ st.blacklist
    · rw [if_pos hbl] at h
      exact Except.noConfusion h
    · rw [if_neg hbl] at h
      by_cases hmu : mapContains st.margs v.name = true ∧ ¬ v.multiple = true
      · rw [if_pos hmu] at h
        exact Except.noConfusion h
      · rw [if_neg hmu] at h
        have hs : parseGroupReqs sch.groups
            (addRequires
              (addBlacklist
                { st with
                    margs := (match mapLookup st.margs v.name with
                      | some _ => mapUpdate st.margs v.name (fun f =>
                          { f with occurrences :=
                              if v.multiple then f.occurrences + 1 else 1 })
                      | none => mapInsert st.margs v.name
                          { occurrences := 1, values := none }),
                    required := removeSet st.required v.name }
                v.blacklist)
              v.requires)
            v.name = st' := congrArg Prod.snd (Except.ok.inj h)
        intro p hp
        rw [← hs] at hp
        rw [parseGroupReqs_margs, addRequires_margs, addBlacklist_margs] at hp
        revert p hp
        cases hlk : mapLookup st.margs v.name with
        | some a =>
          show ∀ p ∈ mapUpdate st.margs v.name (fun f =>
              { f with occurrences := if v.multiple then f.occurrences + 1 else 1 }),
            1 ≤ p.2.occurrences
          refine occAll_mapUpdate (fun p hp => Or.inl (hm p hp)) (fun a => ?_)
          show 1 ≤ if v.multiple = true then a.occurrences + 1 else 1
          split
          · exact Nat.le_add_left 1 _
          · exact Nat.le_refl 1
        | none =>
          show ∀ p ∈ mapInsert st.margs v.name { occurrences := 1, values := none },
            1 ≤ p.2.occurrences
          exact occAll_mapInsert hm (Nat.le_refl 1)

/-- The cluster loop keeps every occurrence count positive. -/
theorem clusterLoop_occ {sch : Schema} {orig : Str} :
    ∀ {cs : List Char} {st st' : ParseState},
      clusterLoop sch orig cs st = .ok st' →
      (∀ p ∈ st.margs, 1 ≤ p.2.occurrences) →
      ∀ p ∈ st'.margs, 1 ≤ p.2.occurrences := by
  intro cs
  induction cs with
  | nil =>
    intro st st' h hm
    injection h with h2
    rw [← h2]
    exact hm
  | cons c cs ih =>
    intro st st' h hm
    simp only [clusterLoop] at h
    cases hch : checkHelpAndVersion sch c with
    | some hh => rw [hch] at h; exact Except.noConfusion h
    | none =>
      rw [hch] at h
      cases hps : parseSingleShortFlag sch st c with
      | error e => rw [hps] at h; exact Except.noConfusion h
      | ok p =>
        obtain ⟨b, stm⟩ := p
        rw [hps] at h
        cases b with
        | true => exact ih h (parseSingleShortFlag_occ hps hm)
        | false => exact Except.noConfusion h

/-- `parse_short_arg` establishes the C9 state invariant. -/
theorem parseShortArg_ok_inv {sch : Schema} {st : ParseState} {fullArg : Str}
    {st' : ParseState} (hwf : optsWF sch.opts = true)
    (h : parseShortArg sch st fullArg = .ok st')
    (hm : ∀ p ∈ st.margs, 1 ≤ p.2.occurrences) :
    (∀ p ∈ st'.margs, 1 ≤ p.2.occurrences ∨ some p.1 = st'.needsValOf)
    ∧ (∀ n, st'.needsValOf = some n →
        ∃ v, alookup sch.opts n = some v ∧ v.name = n)
    ∧ st'.posOnly = st.posOnly := by
  simp only [parseShortArg] at h
  by_cases hlen : (trimDashes fullArg).length > 1
  · rw [if_pos hlen] at h
    cases hcl : clusterLoop sch (trimDashes fullArg) (trimDashes fullArg) st with
    | error e => rw [hcl] at h; exact Except.noConfusion h
    | ok stc =>
      rw [hcl] at h
      have hs : ({ stc with needsValOf := none } : ParseState) = st' :=
        Except.ok.inj h
      rw [← hs]
      refine ⟨?_, ?_, ?_⟩
      · intro p hp
        exact Or.inl (clusterLoop_occ hcl hm p hp)
      · intro n hn
        exact Option.noConfusion hn
      · exact (clusterLoop_keeps hcl).2
  · rw [if_neg hlen] at h
    cases hhd : (trimDashes fullArg).head? with
    | none => rw [hhd] at h; exact Except.noConfusion h
    | some c =>
      simp only [hhd] at h
      cases hchv : checkHelpAndVersion sch c with
      | some hh => rw [hchv] at h; exact Except.noConfusion h
      | none =>
        simp only [hchv] at h
        cases hps : parseSingleShortFlag sch st c with
        | error e => rw [hps] at h; exact Except.noConfusion h
        | ok p =>
          obtain ⟨b, st1⟩ := p
          cases b with
          | true =>
            simp only [hps] at h
            have hs : ({ st1 with needsValOf := none } : ParseState) = st' :=
              Except.ok.inj h
            rw [← hs]
            refine ⟨?_, ?_, ?_⟩
            · intro p hp
              exact Or.inl (parseSingleShortFlag_occ hps hm p hp)
            · intro n hn
              exact Option.noConfusion hn
            · exact (parseSingleShortFlag_keeps hps).2
          | false =>
            simp only [hps] at h
            cases hfo : findOptByShort sch.opts c with
            | none => rw [hfo] at h; exact Except.noConfusion h
            | some v =>
              simp only [hfo] at h
              by_cases hbl : v.name ∈ st.blacklist
              · rw [if_pos hbl] at h
                exact Except.noConfusion h
              · rw [if_neg hbl] at h
                have hpend : ∃ w, alookup sch.opts v.name = some w
                    ∧ w.name = v.name := by
                  have hfo2 := hfo
                  unfold findOptByShort at hfo2
                  exact findOpt_pending hwf hfo2
                by_cases hmc : mapContains st.margs v.name = true
                · rw [if_pos hmc] at h
                  by_cases hmu : ¬ v.multiple = true
                  · rw [if_pos hmu] at h
                    exact Except.noConfusion h
                  · rw [if_neg hmu] at h
                    have hs : ({ parseGroupReqs sch.groups
                        (addRequires
                          { addBlacklist st v.blacklist with
                              required := removeSet
                                (addBlacklist st v.blacklist).required v.name }
                          v.requires)
                        v.name with needsValOf := some v.name } : ParseState)
                        = st' := Except.ok.inj h
                    have hmg : st'.margs = st.margs := by
                      rw [← hs]
                      exact (parseGroupReqs_margs _ _ _).trans
                        ((addRequires_margs _ _).trans (addBlacklist_margs _ _))
                    have hnv : st'.needsValOf = some v.name := by
                      rw [← hs]
                    have hpo : st'.posOnly = st.posOnly := by
                      rw [← hs]
                      exact (parseGroupReqs_keeps _ _ _).2.trans
                        ((addRequires_keeps _ _).2.trans (addBlacklist_keeps _ _).2)
                    refine ⟨?_, ?_, hpo⟩
                    · intro p hp
                      rw [hmg] at hp
                      rw [hnv]
                      exact Or.inl (hm p hp)
                    · intro n hn
                      rw [hnv] at hn
                      injection hn with hn2
                      rw [← hn2]
                      exact hpend
                · rw [if_neg hmc] at h
                  set S1 : ParseState :=
                    { st with margs := mapInsert st.margs v.name ⟨0, some []⟩ }
                    with hS1
                  have hs : ({ parseGroupReqs sch.groups
                      (addRequires
                        { addBlacklist S1 v.blacklist with
                            required := removeSet
                              (addBlacklist S1 v.blacklist).required v.name }
                        v.requires)
                      v.name with needsValOf := some v.name } : ParseState)
                      = st' := Except.ok.inj h
                  have hmg : st'.margs = mapInsert st.margs v.name
                      { occurrences := 0, values := some [] } := by
                    rw [← hs]
                    exact (parseGroupReqs_margs _ _ _).trans
                      ((addRequires_margs _ _).trans (addBlacklist_margs _ _))
                  have hnv : st'.needsValOf = some v.name := by
                    rw [← hs]
                  have hpo : st'.posOnly = st.posOnly := by
                    rw [← hs]
                    exact (parseGroupReqs_keeps _ _ _).2.trans
                      ((addRequires_keeps _ _).2.trans (addBlacklist_keeps _ _).2)
                  refine ⟨?_, ?_, hpo⟩
                  · intro p hp
                    rw [hmg] at hp
                    rw [hnv]
                    rcases margsOcc_mapInsert_self hm p hp with h1 | h1
                    · exact Or.inl h1
                    · exact Or.inr (congrArg some h1)
                  · intro n hn
                    rw [hnv] at hn
                    injection hn with hn2
                    rw [← hn2]
                    exact hpend

/-- States produced through `longOptTail` satisfy the C9 invariant. -/
theorem longOptState_inv {sch : Schema} {st : ParseState} {v : OptBuilder}
    {m : List (Str × MatchedArg)} {av : Option Str} {st' : ParseState}
    (hpend : ∃ w, alookup sch.opts v.name = some w ∧ w.name = v.name)
    (hs : parseLongArg.longOptTail sch { st with margs := m } v av = st')
    (hmOcc : ∀ p ∈ m, 1 ≤ p.2.occurrences ∨ (av = none ∧ p.1 = v.name)) :
    (∀ p ∈ st'.margs, 1 ≤ p.2.occurrences ∨ some p.1 = st'.needsValOf)
    ∧ (∀ n, st'.needsValOf = some n →
        ∃ w, alookup sch.opts n = some w ∧ w.name = n)
    ∧ st'.posOnly = st.posOnly := by
  obtain ⟨hmg0, hpo0, hnv0⟩ := @longOptTail_inv sch { st with margs := m } v av
  rw [hs] at hmg0 hpo0 hnv0
  refine ⟨?_, ?_, hpo0⟩
  · intro p hp
    rw [hmg0] at hp
    rcases hmOcc p hp with h1 | ⟨hav, hpk⟩
    · exact Or.inl h1
    · subst hav
      refine Or.inr ?_
      rw [hnv0, hpk]
  · intro n hn
    rw [hnv0] at hn
    cases av with
    | some a => exact Option.noConfusion hn
    | none =>
      injection hn with hn2
      rw [← hn2]
      exact hpend

/-- `parse_long_arg` establishes the C9 state invariant. -/
theorem parseLongArg_ok_inv {sch : Schema} {st : ParseState} {fullArg : Str}
    {st' : ParseState} (hwf : optsWF sch.opts = true)
    (h : parseLongArg sch st fullArg = .ok st')
    (hm : ∀ p ∈ st.margs, 1 ≤ p.2.occurrences) :
    (∀ p ∈ st'.margs, 1 ≤ p.2.occurrences ∨ some p.1 = st'.needsValOf)
    ∧ (∀ n, st'.needsValOf = some n →
        ∃ v, alookup sch.opts n = some v ∧ v.name = n)
    ∧ st'.posOnly = st.posOnly := by
  simp only [parseLongArg] at h
  generalize ha0 : trimDashes fullArg = a0 at h
  by_cases h1 : a0 = str "help" ∧ sch.needsLongHelp = true
  · rw [if_pos h1] at h
    exact Except.noConfusion h
  · rw [if_neg h1] at h
    by_cases h2 : a0 = str "version" ∧ sch.needsLongVersion = true
    · rw [if_pos h2] at h
      exact Except.noConfusion h
    · rw [if_neg h2] at h
      cases hEq : a0.contains '=' with
      | false =>
        rw [hEq] at h
        rw [if_neg (show ¬ ((false : Bool) = true
            ∧ ((splitChar '=' a0).drop 1).headD [] = [])
          from fun hc => Bool.noConfusion hc.1)] at h
        simp only [if_neg (show ¬ ((false : Bool) = true)
          from fun hc => Bool.noConfusion hc)] at h
        cases hopt : findOptByLong sch.opts a0 with
        | some v =>
          simp only [hopt] at h
          have hpend : ∃ w, alookup sch.opts v.name = some w
              ∧ w.name = v.name := by
            have hopt2 := hopt
            unfold findOptByLong at hopt2
            exact findOpt_pending hwf hopt2
          by_cases hbl : v.name ∈ st.blacklist
          · rw [if_pos hbl] at h
            exact Except.noConfusion h
          · rw [if_neg hbl] at h
            by_cases hmc : mapContains st.margs v.name = true
            · rw [if_pos hmc] at h
              by_cases hmu : ¬ v.multiple = true
              · rw [if_pos hmu] at h
                exact Except.noConfusion h
              · rw [if_neg hmu] at h
                cases hpv : v.possible_vals with
                | some pvals =>
                  simp only [hpv] at h
                  have hs : parseLongArg.longOptTail sch
                      { st with margs := st.margs } v none = st' :=
                    Except.ok.inj h
                  exact longOptState_inv hpend hs
                    (fun p hp => Or.inl (hm p hp))
                | none =>
                  simp only [hpv] at h
                  have hs : parseLongArg.longOptTail sch
                      { st with margs := st.margs } v none = st' :=
                    Except.ok.inj h
                  exact longOptState_inv hpend hs
                    (fun p hp => Or.inl (hm p hp))
            · rw [if_neg hmc] at h
              have hs : parseLongArg.longOptTail sch
                  { st with margs := mapInsert st.margs v.name ⟨0, some []⟩ }
                  v none = st' := Except.ok.inj h
              refine longOptState_inv hpend hs (fun p hp => ?_)
              rcases margsOcc_mapInsert_self hm p hp with h1 | h1
              · exact Or.inl h1
              · exact Or.inr ⟨rfl, h1⟩
        | none =>
          simp only [hopt] at h
          cases hflag : findFlagByLong sch.flags a0 with
          | none =>
            rw [hflag] at h
            exact Except.noConfusion h
          | some v =>
            simp only [hflag] at h
            by_cases hbl : v.name ∈ st.blacklist
            · rw [if_pos hbl] at h
              exact Except.noConfusion h
            · rw [if_neg hbl] at h
              by_cases hm2 : mapContains st.margs v.name = true ∧ ¬ v.multiple = true
              · rw [if_pos hm2] at h
                exact Except.noConfusion h
              · rw [if_neg hm2] at h
                have hs : ({ parseGroupReqs sch.groups
                    (addRequires
                      (addBlacklist
                        { st with
                            margs := (match mapLookup st.margs v.name with
                              | some _ => mapUpdate st.margs v.name (fun f =>
                                  { f with occurrences :=
                                      if v.multiple then f.occurrences + 1 else 1 })
                              | none => mapInsert st.margs v.name ⟨1, none⟩),
                            required := removeSet st.required v.name }
                        v.blacklist)
                      v.requires)
                    v.name with needsValOf := none } : ParseState) = st' :=
                  Except.ok.inj h
                have hmg : st'.margs = (match mapLookup st.margs v.name with
                    | some _ => mapUpdate st.margs v.name (fun f =>
                        { f with occurrences :=
                            if v.multiple then f.occurrences + 1 else 1 })
                    | none => mapInsert st.margs v.name ⟨1, none⟩) := by
                  rw [← hs]
                  exact (parseGroupReqs_margs _ _ _).trans
                    ((addRequires_margs _ _).trans (addBlacklist_margs _ _))
                have hnv : st'.needsValOf = none := by
                  rw [← hs]
                have hpo : st'.posOnly = st.posOnly := by
                  rw [← hs]
                  exact (parseGroupReqs_keeps _ _ _).2.trans
                    ((addRequires_keeps _ _).2.trans (addBlacklist_keeps _ _).2)
                have hocc : ∀ p ∈ st'.margs, 1 ≤ p.2.occurrences := by
                  rw [hmg]
                  cases hlk : mapLookup st.margs v.name with
                  | some a =>
                    show ∀ p ∈ mapUpdate st.margs v.name (fun f =>
                        { f with occurrences :=
                            if v.multiple then f.occurrences + 1 else 1 }),
                      1 ≤ p.2.occurrences
                    refine occAll_mapUpdate (fun p hp => Or.inl (hm p hp))
                      (fun a => ?_)
                    show 1 ≤ if v.multiple = true then a.occurrences + 1 else 1
                    split
                    · exact Nat.le_add_left 1 _
                    · exact Nat.le_refl 1
                  | none =>
                    show ∀ p ∈ mapInsert st.margs v.name ⟨1, none⟩,
                      1 ≤ p.2.occurrences
                    exact occAll_mapInsert hm (Nat.le_refl 1)
                refine ⟨fun p hp => Or.inl (hocc p hp), ?_, hpo⟩
                intro n hn
                rw [hnv] at hn
                exact Option.noConfusion hn
      | true =>
        rw [hEq] at h
        by_cases hsec : ((splitChar '=' a0).drop 1).headD [] = []
        · rw [if_pos ⟨rfl, hsec⟩] at h
          exact Except.noConfusion h
        · rw [if_neg (fun hc => hsec hc.2)] at h
          simp only [if_true] at h
          cases hopt : findOptByLong sch.opts ((splitChar '=' a0).headD []) with
          | some v =>
            simp only [hopt] at h
            have hpend : ∃ w, alookup sch.opts v.name = some w
                ∧ w.name = v.name := by
              have hopt2 := hopt
              unfold findOptByLong at hopt2
              exact findOpt_pending hwf hopt2
            by_cases hbl : v.name ∈ st.blacklist
            · rw [if_pos hbl] at h
              exact Except.noConfusion h
            · rw [if_neg hbl] at h
              by_cases hmc : mapContains st.margs v.name = true
              · rw [if_pos hmc] at h
                by_cases hmu : ¬ v.multiple = true
                · rw [if_pos hmu] at h
                  exact Except.noConfusion h
                · rw [if_neg hmu] at h
                  cases hpv : v.possible_vals with
                  | some pvals =>
                    simp only [hpv] at h
                    by_cases hin : ((splitChar '=' a0).drop 1).headD [] ∉ pvals
                    · rw [if_pos hin] at h
                      exact Except.noConfusion h
                    · rw [if_neg hin] at h
                      have hs : parseLongArg.longOptTail sch
                          { st with margs := mapUpdate st.margs v.name (fun o =>
                              { o with occurrences := o.occurrences + 1,
                                       values := o.values.map (fun vs =>
                                         vs ++ [((splitChar '=' a0).drop 1).headD []]) }) }
                          v (some (((splitChar '=' a0).drop 1).headD [])) = st' :=
                        Except.ok.inj h
                      refine longOptState_inv hpend hs (fun p hp => ?_)
                      refine Or.inl (occAll_mapUpdate
                        (fun p hp => Or.inl (hm p hp)) (fun a => ?_) p hp)
                      exact Nat.le_add_left 1 _
                  | none =>
                    simp only [hpv] at h
                    have hs : parseLongArg.longOptTail sch
                        { st with margs := mapUpdate st.margs v.name (fun o =>
                            { o with occurrences := o.occurrences + 1,
                                     values := o.values.map (fun vs =>
                                       vs ++ [((splitChar '=' a0).drop 1).headD []]) }) }
                        v (some (((splitChar '=' a0).drop 1).headD [])) = st' :=
                      Except.ok.inj h
                    refine longOptState_inv hpend hs (fun p hp => ?_)
                    refine Or.inl (occAll_mapUpdate
                      (fun p hp => Or.inl (hm p hp)) (fun a => ?_) p hp)
                    exact Nat.le_add_left 1 _
              · rw [if_neg hmc] at h
                have hs : parseLongArg.longOptTail sch
                    { st with margs := (mapInsert st.margs v.name
                        ⟨1, some [((splitChar '=' a0).drop 1).headD []]⟩) }
                    v (some (((splitChar '=' a0).drop 1).headD [])) = st' :=
                  Except.ok.inj h
                refine longOptState_inv hpend hs (fun p hp => ?_)
                exact Or.inl (occAll_mapInsert hm (Nat.le_refl 1) p hp)
          | none =>
            simp only [hopt] at h
            cases hflag : findFlagByLong sch.flags ((splitChar '=' a0).headD []) with
            | none =>
              rw [hflag] at h
              exact Except.noConfusion h
            | some v =>
              simp only [hflag] at h
              by_cases hbl : v.name ∈ st.blacklist
              · rw [if_pos hbl] at h
                exact Except.noConfusion h
              · rw [if_neg hbl] at h
                by_cases hm2 : mapContains st.margs v.name = true ∧ ¬ v.multiple = true
                · rw [if_pos hm2] at h
                  exact Except.noConfusion h
                · rw [if_neg hm2] at h
                  have hs : ({ parseGroupReqs sch.groups
                      (addRequires
                        (addBlacklist
                          { st with
                              margs := (match mapLookup st.margs v.name with
                                | some _ => mapUpdate st.margs v.name (fun f =>
                                    { f with occurrences :=
                                        if v.multiple then f.occurrences + 1 else 1 })
                                | none => mapInsert st.margs v.name ⟨1, none⟩),
                              required := removeSet st.required v.name }
                          v.blacklist)
                        v.requires)
                      v.name with needsValOf := none } : ParseState) = st' :=
                    Except.ok.inj h
                  have hmg : st'.margs = (match mapLookup st.margs v.name with
                      | some _ => mapUpdate st.margs v.name (fun f =>
                          { f with occurrences :=
                              if v.multiple then f.occurrences + 1 else 1 })
                      | none => mapInsert st.margs v.name ⟨1, none⟩) := by
                    rw [← hs]
                    exact (parseGroupReqs_margs _ _ _).trans
                      ((addRequires_margs _ _).trans (addBlacklist_margs _ _))
                  have hnv : st'.needsValOf = none := by
                    rw [← hs]
                  have hpo : st'.posOnly = st.posOnly := by
                    rw [← hs]
                    exact (parseGroupReqs_keeps _ _ _).2.trans
                      ((addRequires_keeps _ _).2.trans (addBlacklist_keeps _ _).2)
                  have hocc : ∀ p ∈ st'.margs, 1 ≤ p.2.occurrences := by
                    rw [hmg]
                    cases hlk : mapLookup st.margs v.name with
                    | some a =>
                      show ∀ p ∈ mapUpdate st.margs v.name (fun f =>
                          { f with occurrences :=
                              if v.multiple then f.occurrences + 1 else 1 }),
                        1 ≤ p.2.occurrences
                      refine occAll_mapUpdate (fun p hp => Or.inl (hm p hp))
                        (fun a => ?_)
                      show 1 ≤ if v.multiple = true then a.occurrences + 1 else 1
                      split
                      · exact Nat.le_add_left 1 _
                      · exact Nat.le_refl 1
                    | none =>
                      show ∀ p ∈ mapInsert st.margs v.name ⟨1, none⟩,
                        1 ≤ p.2.occurrences
                      exact occAll_mapInsert hm (Nat.le_refl 1)
                  refine ⟨fun p hp => Or.inl (hocc p hp), ?_, hpo⟩
                  intro n hn
                  rw [hnv] at hn
                  exact Option.noConfusion hn

/-- The positional branch keeps all occurrence counts positive and
leaves the pending value and mode untouched. -/
theorem posArgBranch_ok_inv {sch : Schema} {st : ParseState} {arg : Str}
    {st' : ParseState} (h : posArgBranch sch st arg = .ok st')
    (hm : ∀ p ∈ st.margs, 1 ≤ p.2.occurrences) :
    (∀ p ∈ st'.margs, 1 ≤ p.2.occurrences)
    ∧ st'.needsValOf = st.needsValOf ∧ st'.posOnly = st.posOnly := by
  simp only [posArgBranch] at h
  by_cases h0 : sch.positionals.isEmpty = true
  · rw [if_pos h0] at h
    exact Except.noConfusion h
  · rw [if_neg h0] at h
    cases hfp : (sch.positionals.find? (fun p => p.1 = st.posCounter)).map Prod.snd with
    | none =>
      rw [hfp] at h
      exact Except.noConfusion h
    | some p =>
      simp only [hfp] at h
      by_cases hbl : p.name ∈ st.blacklist
      · rw [if_pos hbl] at h
        exact Except.noConfusion h
      · rw [if_neg hbl] at h
        have hrest : ∀ M C,
            (parseGroupReqs sch.groups
                (addRequires
                  { addBlacklist { st with margs := M, posCounter := C }
                      p.blacklist with
                      required := removeSet
                        (addBlacklist { st with margs := M, posCounter := C }
                          p.blacklist).required p.name }
                  p.requires)
                p.name = st')
            → (∀ q ∈ M, 1 ≤ q.2.occurrences)
            → (∀ q ∈ st'.margs, 1 ≤ q.2.occurrences)
              ∧ st'.needsValOf = st.needsValOf ∧ st'.posOnly = st.posOnly := by
          intro M C hs hMocc
          have hmg : st'.margs = M := by
            rw [← hs]
            exact (parseGroupReqs_margs _ _ _).trans
              ((addRequires_margs _ _).trans (addBlacklist_margs _ _))
          refine ⟨?_, ?_, ?_⟩
          · intro q hq
            rw [hmg] at hq
            exact hMocc q hq
          · rw [← hs]
            exact (parseGroupReqs_keeps _ _ _).1.trans
              ((addRequires_keeps _ _).1.trans (addBlacklist_keeps _ _).1)
          · rw [← hs]
            exact (parseGroupReqs_keeps _ _ _).2.trans
              ((addRequires_keeps _ _).2.trans (addBlacklist_keeps _ _).2)
        have hbump : ∀ a : MatchedArg, (1 : Nat) ≤
            ({ a with occurrences := a.occurrences + 1,
                      values := a.values.map (fun vs => vs ++ [arg]) }).occurrences :=
          fun a => Nat.le_add_left 1 _
        cases hpv : p.possible_vals with
        | some pvals =>
          simp only [hpv] at h
          by_cases hbad : ¬ pvals.isEmpty = true ∧ arg ∉ pvals
          · rw [if_pos (decide_eq_true hbad)] at h
            exact Except.noConfusion h
          · rw [if_neg (fun hc => hbad (of_decide_eq_true hc))] at h
            by_cases hmul : p.multiple = true
            · rw [if_pos hmul] at h
              cases hlk : mapLookup st.margs p.name with
              | some a =>
                simp only [hlk] at h
                exact hrest _ st.posCounter (Except.ok.inj h)
                  (occAll_mapUpdate (fun q hq => Or.inl (hm q hq)) hbump)
              | none =>
                simp only [hlk] at h
                exact hrest _ st.posCounter (Except.ok.inj h)
                  (occAll_mapInsert hm (Nat.le_refl 1))
            · rw [if_neg hmul] at h
              exact hrest _ (st.posCounter + 1) (Except.ok.inj h)
                (occAll_mapInsert hm (Nat.le_refl 1))
        | none =>
          simp only [hpv] at h
          rw [if_neg (fun hc => Bool.noConfusion hc)] at h
          by_cases hmul : p.multiple = true
          · rw [if_pos hmul] at h
            cases hlk : mapLookup st.margs p.name with
            | some a =>
              simp only [hlk] at h
              exact hrest _ st.posCounter (Except.ok.inj h)
                (occAll_mapUpdate (fun q hq => Or.inl (hm q hq)) hbump)
            | none =>
              simp only [hlk] at h
              exact hrest _ st.posCounter (Except.ok.inj h)
                (occAll_mapInsert hm (Nat.le_refl 1))
          · rw [if_neg hmul] at h
            exact hrest _ (st.posCounter + 1) (Except.ok.inj h)
                (occAll_mapInsert hm (Nat.le_refl 1))

/-- Token classification establishes the C9 state invariant. -/
theorem classifyToken_inv {sch : Schema} {keys : List Str} {st : ParseState}
    {arg : Str} {r : StepRes} (hwf : optsWF sch.opts = true)
    (hnvo : st.needsValOf = none)
    (hm : ∀ p ∈ st.margs, 1 ≤ p.2.occurrences)
    (h : classifyToken sch keys st arg = .ok r) :
    stInv sch r.state := by
  unfold classifyToken at h
  by_cases h1 : startsDashDash arg = true ∧ ¬ st.posOnly = true
  · rw [if_pos h1] at h
    by_cases h2 : arg.length = 2
    · rw [if_pos h2] at h
      have hr : StepRes.cont { st with posOnly := true } = r := Except.ok.inj h
      subst hr
      show stInv sch { st with posOnly := true }
      refine ⟨fun p hp => Or.inl (hm p hp), ?_, fun _ => hnvo⟩
      intro n hn
      rw [show ({ st with posOnly := true } : ParseState).needsValOf
          = st.needsValOf from rfl, hnvo] at hn
      exact Option.noConfusion hn
    · rw [if_neg h2] at h
      cases hpl : parseLongArg sch st arg with
      | error e => rw [hpl] at h; exact Except.noConfusion h
      | ok st1 =>
        rw [hpl] at h
        have hr : StepRes.cont st1 = r := Except.ok.inj h
        subst hr
        show stInv sch st1
        obtain ⟨ha, hb, hc⟩ := parseLongArg_ok_inv hwf hpl hm
        refine ⟨ha, hb, ?_⟩
        intro hpo
        exact absurd (hc.symm.trans hpo) h1.2
  · rw [if_neg h1] at h
    by_cases h2 : startsDash arg = true ∧ ¬ arg.length = 1 ∧ ¬ st.posOnly = true
    · rw [if_pos h2] at h
      cases hps : parseShortArg sch st arg with
      | error e => rw [hps] at h; exact Except.noConfusion h
      | ok st1 =>
        rw [hps] at h
        have hr : StepRes.cont st1 = r := Except.ok.inj h
        subst hr
        show stInv sch st1
        obtain ⟨ha, hb, hc⟩ := parseShortArg_ok_inv hwf hps hm
        refine ⟨ha, hb, ?_⟩
        intro hpo
        exact absurd (hc.symm.trans hpo) h2.2.2
    · rw [if_neg h2] at h
      by_cases h3 : arg ∈ keys
      · rw [if_pos h3] at h
        by_cases h4 : arg = str "help"
        · rw [if_pos h4] at h
          exact Except.noConfusion h
        · rw [if_neg h4] at h
          have hr : StepRes.sub arg st = r := Except.ok.inj h
          subst hr
          show stInv sch st
          refine ⟨fun p hp => Or.inl (hm p hp), ?_, fun _ => hnvo⟩
          intro n hn
          rw [hnvo] at hn
          exact Option.noConfusion hn
      · rw [if_neg h3] at h
        cases hpa : posArgBranch sch st arg with
        | error e => rw [hpa] at h; exact Except.noConfusion h
        | ok st1 =>
          rw [hpa] at h
          have hr : StepRes.cont st1 = r := Except.ok.inj h
          subst hr
          show stInv sch st1
          obtain ⟨ha, hb, hc⟩ := posArgBranch_ok_inv hpa hm
          refine ⟨fun p hp => Or.inl (ha p hp), ?_, ?_⟩
          · intro n hn
            rw [hb, hnvo] at hn
            exact Option.noConfusion hn
          · intro _
            rw [hb]
            exact hnvo

/-- One loop iteration preserves the C9 state invariant. -/
theorem stepToken_inv {sch : Schema} {keys : List Str} {st : ParseState}
    {arg : Str} {r : StepRes} (hwf : optsWF sch.opts = true)
    (hinv : stInv sch st)
    (h : stepToken sch keys st arg = .ok r) :
    stInv sch r.state := by
  obtain ⟨hm, hn, hp⟩ := hinv
  unfold stepToken at h
  cases hpos : st.posOnly with
  | true =>
    rw [hpos] at h
    have hnone := hp hpos
    have hm0 : ∀ p ∈ st.margs, 1 ≤ p.2.occurrences := by
      intro p hp'
      rcases hm p hp' with h1 | h1
      · exact h1
      · rw [hnone] at h1
        exact Option.noConfusion h1
    have h2 : classifyToken sch keys st arg = .ok r := h
    exact classifyToken_inv hwf hnone hm0 h2
  | false =>
    rw [hpos] at h
    cases hnvo : st.needsValOf with
    | none =>
      rw [hnvo] at h
      have hm0 : ∀ p ∈ st.margs, 1 ≤ p.2.occurrences := by
        intro p hp'
        rcases hm p hp' with h1 | h1
        · exact h1
        · rw [hnvo] at h1
          exact Option.noConfusion h1
      have h2 : classifyToken sch keys st arg = .ok r := h
      exact classifyToken_inv hwf hnvo hm0 h2
    | some nvoN =>
      rw [hnvo] at h
      obtain ⟨v, hlk, hvn⟩ := hn nvoN hnvo
      have h2 : (match alookup sch.opts nvoN with
          | some opt =>
            match consumePendingVal opt st arg with
            | .error e => Except.error e
            | .ok st1 => Except.ok (StepRes.cont { st1 with needsValOf := none })
          | none => classifyToken sch keys st arg) = Except.ok r := h
      simp only [hlk] at h2
      cases hcp : consumePendingVal v st arg with
      | error e => rw [hcp] at h2; exact Except.noConfusion h2
      | ok st1 =>
        simp only [hcp] at h2
        have hr : StepRes.cont { st1 with needsValOf := none } = r :=
          Except.ok.inj h2
        subst hr
        show stInv sch { st1 with needsValOf := none }
        have hst1 : st1 = consumePendingVal.pendingRecord v st arg := by
          unfold consumePendingVal at hcp
          cases hpv : v.possible_vals with
          | some pvals =>
            simp only [hpv] at hcp
            by_cases hbad : ¬ pvals.isEmpty = true ∧ arg ∉ pvals
            · rw [if_pos hbad] at hcp
              exact Except.noConfusion hcp
            · rw [if_neg hbad] at hcp
              exact (Except.ok.inj hcp).symm
          | none =>
            rw [hpv] at hcp
            exact (Except.ok.inj hcp).symm
        refine ⟨?_, ?_, ?_⟩
        · intro p hp'
          refine Or.inl ?_
          rw [hst1] at hp'
          have hMocc : ∀ q ∈ mapUpdate st.margs v.name (fun o =>
              { o with values := o.values.map (fun vs => vs ++ [arg]),
                       occurrences := if v.multiple then o.occurrences + 1 else 1 }),
              1 ≤ q.2.occurrences := by
            refine occAll_mapUpdate ?_ ?_
            · intro q hq
              rcases hm q hq with h1 | h1
              · exact Or.inl h1
              · rw [hnvo] at h1
                injection h1 with h1b
                rw [← hvn] at h1b
                exact Or.inr h1b
            · intro a
              show 1 ≤ if v.multiple = true then a.occurrences + 1 else 1
              split
              · exact Nat.le_add_left 1 _
              · exact Nat.le_refl 1
          exact hMocc p hp'
        · intro n hn2
          exact Option.noConfusion hn2
        · intro _
          rfl

/-- The token loop preserves the C9 state invariant. -/
theorem parseLoop_inv {sch : Schema} {keys : List Str}
    (hwf : optsWF sch.opts = true) :
    ∀ {tokens : List Str} {st : ParseState} {ex : LoopExit},
      parseLoop sch keys st tokens = .ok ex →
      stInv sch st →
      stInv sch ex.state := by
  intro tokens
  induction tokens with
  | nil =>
    intro st ex h hinv
    injection h with h2
    subst h2
    exact hinv
  | cons t ts ih =>
    intro st ex h hinv
    rw [parseLoop_cons_eq] at h
    cases hstep : stepToken sch keys st t with
    | error e => rw [hstep] at h; exact Except.noConfusion h
    | ok r =>
      rw [hstep] at h
      have hinv' := stepToken_inv hwf hinv hstep
      cases r with
      | cont st1 =>
        exact ih h hinv'
      | sub name st1 =>
        have h2 : LoopExit.subc name st1 ts = ex := Except.ok.inj h
        subst h2
        exact hinv'

/-- `create_help_and_version` touches only the flag store. -/
theorem createHelpAndVersion_opts (sch : Schema) :
    (createHelpAndVersion sch).opts = sch.opts := by
  unfold createHelpAndVersion
  split <;> (dsimp only; split <;> rfl)

theorem appOptsWFN_helpApp (fuel : Nat) : appOptsWFN fuel helpApp = true := by
  cases fuel with
  | zero => rfl
  | succ n => rfl

theorem appOptsWFN_setBinName (fuel : Nat) (a : App) (b : Str) :
    appOptsWFN fuel (a.setBinName b) = appOptsWFN fuel a := by
  cases a
  cases fuel <;> rfl

theorem mem_subInsertSorted {k : Str} {v : App} {p : Str × App} :
    ∀ {l : List (Str × App)}, p ∈ subInsertSorted k v l → p = (k, v) ∨ p ∈ l := by
  intro l
  induction l with
  | nil =>
    intro h
    rcases List.mem_singleton.mp h with rfl
    exact Or.inl rfl
  | cons hd tl ih =>
    intro h
    obtain ⟨k', v'⟩ := hd
    unfold subInsertSorted at h
    by_cases h1 : strLt k k' = true
    · rw [if_pos h1] at h
      rcases List.mem_cons.mp h with rfl | h2
      · exact Or.inl rfl
      · exact Or.inr h2
    · rw [if_neg h1] at h
      by_cases h2 : k = k'
      · rw [if_pos h2] at h
        rcases List.mem_cons.mp h with rfl | h3
        · exact Or.inl rfl
        · exact Or.inr (List.mem_cons_of_mem _ h3)
      · rw [if_neg h2] at h
        rcases List.mem_cons.mp h with rfl | h3
        · exact Or.inr (List.mem_cons_self _ _)
        · rcases ih h3 with h4 | h4
          · exact Or.inl h4
          · exact Or.inr (List.mem_cons_of_mem _ h4)

/-- C9: in every match result returned by a successful (non-erroring)
parse, at every subcommand depth, every matched argument entry has at
least one occurrence — even though option entries are created with zero
occurrences before their value token arrives, because the post-loop
pending-value check rules out an option left without its value.
`appOptsWFN` records the registration invariant that option-store keys
are the builders' own names, which `arg()` guarantees for every store
built through the public API. -/
theorem c9_success_implies_positive_occurrences :
    ∀ {fuel : Nat} {app : App} {tokens : List Str} {m : ArgMatches},
      appOptsWFN fuel app = true →
      getMatchesFrom fuel app tokens = .ok m →
      allOcc m = true := by
  intro fuel
  induction fuel with
  | zero =>
    intro app tokens m hwf h
    exact Except.noConfusion h
  | succ fuel ih =>
    intro app tokens m hwf h
    obtain ⟨name, sch, nsh, req, mreq, bl, bin, subs⟩ := app
    simp only [appOptsWFN, Bool.and_eq_true, List.all_eq_true] at hwf
    obtain ⟨hwfo, hwfs⟩ := hwf
    simp only [getMatchesFrom] at h
    generalize hsch1 : createHelpAndVersion sch = sch1 at h
    generalize hsubs1 : (if nsh = true ∧ ¬ subs.isEmpty = true
        then subInsertSorted (str "help") helpApp subs else subs) = subs1 at h
    generalize hst0 : ({ margs := [], required := req, matchedReqs := mreq,
                         blacklist := bl, posOnly := false, posCounter := 1,
                         needsValOf := none } : ParseState) = st0 at h
    have hwf1 : optsWF sch1.opts = true := by
      rw [← hsch1, createHelpAndVersion_opts]
      exact hwfo
    have hsubwf : ∀ sc, (∃ k, subLookup subs1 k = some sc) →
        appOptsWFN fuel sc = true := by
      rintro sc ⟨k, hsl⟩
      have hmem : (k, sc) ∈ subs1 :=
        alookup_some_mem (show alookup subs1 k = some sc from hsl)
      rw [← hsubs1] at hmem
      by_cases hcond : nsh = true ∧ ¬ subs.isEmpty = true
      · rw [if_pos hcond] at hmem
        rcases mem_subInsertSorted hmem with h1 | h1
        · have h2 : sc = helpApp := congrArg Prod.snd h1
          rw [h2]
          exact appOptsWFN_helpApp fuel
        · exact hwfs (k, sc) h1
      · rw [if_neg hcond] at hmem
        exact hwfs (k, sc) hmem
    have hinv0 : stInv sch1 st0 := by
      rw [← hst0]
      exact ⟨fun p hp => absurd hp (List.not_mem_nil p),
             fun n hn => Option.noConfusion hn,
             fun _ => rfl⟩
    cases hloop : parseLoop sch1 (subs1.map Prod.fst) st0 tokens with
    | error e => rw [hloop] at h; exact Except.noConfusion h
    | ok ex =>
      simp only [hloop] at h
      have hinv := parseLoop_inv hwf1 hloop hinv0
      cases ex with
      | fin stf =>
        dsimp only at h
        have hinv2 : stInv sch1 stf := hinv
        obtain ⟨hm1, hn1, hp1⟩ := hinv2
        cases hnv : stf.needsValOf with
        | some a => rw [hnv] at h; exact Except.noConfusion h
        | none =>
          rw [hnv] at h
          cases hvb : validateBlacklist sch1 stf with
          | some e => rw [hvb] at h; exact Except.noConfusion h
          | none =>
            rw [hvb] at h
            by_cases hreq : ¬ stf.required.isEmpty = true
                ∧ validateRequired sch1 stf = true
            · rw [if_pos hreq] at h
              exact Except.noConfusion h
            · rw [if_neg hreq] at h
              have hfin : ArgMatches.mk stf.margs none = m := Except.ok.inj h
              subst hfin
              simp only [allOcc, Bool.and_eq_true, List.all_eq_true]
              refine ⟨fun p hp => ?_, trivial⟩
              simp only [decide_eq_true_eq]
              rcases hm1 p hp with h1 | h1
              · exact h1
              · rw [hnv] at h1
                exact Option.noConfusion h1
      | subc scn scst rest =>
        dsimp only at h
        have hinv2 : stInv sch1 scst := hinv
        obtain ⟨hm1, hn1, hp1⟩ := hinv2
        cases hnv : scst.needsValOf with
        | some a => rw [hnv] at h; exact Except.noConfusion h
        | none =>
          rw [hnv] at h
          cases hvb : validateBlacklist sch1 scst with
          | some e => rw [hvb] at h; exact Except.noConfusion h
          | none =>
            rw [hvb] at h
            by_cases hreq : ¬ scst.required.isEmpty = true
                ∧ validateRequired sch1 scst = true
            · rw [if_pos hreq] at h
              exact Except.noConfusion h
            · rw [if_neg hreq] at h
              cases hsl : subLookup subs1 scn with
              | none =>
                rw [hsl] at h
                have hfin : ArgMatches.mk scst.margs none = m := Except.ok.inj h
                subst hfin
                simp only [allOcc, Bool.and_eq_true, List.all_eq_true]
                refine ⟨fun p hp => ?_, trivial⟩
                simp only [decide_eq_true_eq]
                rcases hm1 p hp with h1 | h1
                · exact h1
                · rw [hnv] at h1
                  exact Option.noConfusion h1
              | some sc =>
                simp only [hsl] at h
                cases hrec : getMatchesFrom fuel
                    (sc.setBinName (qualifyBin bin name)) rest with
                | error e => rw [hrec] at h; exact Except.noConfusion h
                | ok m2 =>
                  simp only [hrec] at h
                  have hfin : ArgMatches.mk scst.margs (some (sc.name, m2)) = m :=
                    Except.ok.inj h
                  subst hfin
                  have hm2 : allOcc m2 = true := by
                    refine ih ?_ hrec
                    rw [appOptsWFN_setBinName]
                    exact hsubwf sc ⟨scn, hsl⟩
                  simp only [allOcc, Bool.and_eq_true, List.all_eq_true]
                  refine ⟨fun p hp => ?_, hm2⟩
                  simp only [decide_eq_true_eq]
                  rcases hm1 p hp with h1 | h1
                  · exact h1
                  · rw [hnv] at h1
                    exact Option.noConfusion h1

/-- C9 witness: the single-option command parsed successfully on
`--out f`: the match entry carries one occurrence. -/
theorem c9_witness :
    allOcc (ArgMatches.mk [(str "out", ⟨1, some [str "f"]⟩)] none) = true :=
  c9_success_implies_positive_occurrences
    (show appOptsWFN 1 (optApp (optB "out" none (some "out") none false)) = true
      from rfl)
    (show getMatchesFrom 1 (optApp (optB "out" none (some "out") none false))
        [str "--out", str "f"]
      = .ok (.mk [(str "out", ⟨1, some [str "f"]⟩)] none) from rfl)

end Clap
